import Mathlib

/-!
Verification of the v12_ultra_optimized portfolio-challenge client.

The Python modules `config.py`, `strategies.py`, `portfolio_validator.py`,
`cache_manager.py` and `api_client.py` are shallowly embedded below:
  * Python `float` prices and budgets become `Rat`;
  * Python `dict` becomes an association list with unique keys, where
    insertion updates the first occurrence in place or appends at the end;
  * Python `int(x)` (truncation toward zero) becomes `truncInt`;
  * Python `list.sort(key=...)` (a stable merge sort) becomes
    `List.mergeSort` with the corresponding `≤` test;
  * a Python method mutating `self` becomes a function from the state to
    the new state together with its return value.
-/

namespace Prism

/-- Python `int(q)` on a rational: truncation toward zero. -/
def truncInt (q : Rat) : Int :=
  if 0 ≤ q then ⌊q⌋ else -⌊-q⌋

theorem truncInt_nonneg_eq_floor {q : Rat} (h : 0 ≤ q) : truncInt q = ⌊q⌋ := by
  simp [truncInt, h]

theorem truncInt_le {q : Rat} (h : 0 ≤ q) : (truncInt q : Rat) ≤ q := by
  rw [truncInt_nonneg_eq_floor h]
  exact Int.floor_le q

theorem truncInt_nonpos {q : Rat} (h : q ≤ 0) : truncInt q ≤ 0 := by
  unfold truncInt
  split
  · have h0 : q = 0 := le_antisymm h (by assumption)
    simp [h0]
  · have : (0 : Rat) ≤ -q := by linarith
    have : (0 : Int) ≤ ⌊-q⌋ := Int.floor_nonneg.mpr this
    omega

/-! ### Association-list dictionaries (Python `dict`) -/

/-- First-match lookup in an association list, as in a Python `dict`
whose keys are unique. -/
def alookup {κ ν : Type} [DecidableEq κ] (k : κ) : List (κ × ν) → Option ν
  | [] => none
  | (k', v) :: rest => if k' = k then some v else alookup k rest

/-- Python `d[k] = v`: overwrite the first occurrence in place, or append. -/
def dictInsert {κ ν : Type} [DecidableEq κ] (m : List (κ × ν)) (k : κ) (v : ν) :
    List (κ × ν) :=
  match m with
  | [] => [(k, v)]
  | (k', v') :: rest =>
    if k' = k then (k', v) :: rest else (k', v') :: dictInsert rest k v

theorem alookup_mem {κ ν : Type} [DecidableEq κ] {k : κ} {v : ν} :
    ∀ {m : List (κ × ν)}, alookup k m = some v → (k, v) ∈ m := by
  intro m
  induction m with
  | nil => intro h; simp [alookup] at h
  | cons kv rest ih =>
    intro h
    obtain ⟨k', v'⟩ := kv
    by_cases hk : k' = k
    · simp [alookup, hk] at h
      subst hk; subst h; exact List.mem_cons_self _ _
    · simp [alookup, hk] at h
      exact List.mem_cons_of_mem _ (ih h)

theorem dictInsert_lookup_ne {κ ν : Type} [DecidableEq κ]
    (m : List (κ × ν)) (k k' : κ) (v : ν) (hne : k' ≠ k) :
    alookup k' (dictInsert m k v) = alookup k' m := by
  have hne' : ¬ k = k' := fun h => hne h.symm
  induction m with
  | nil => simp [dictInsert, alookup, hne']
  | cons kv rest ih =>
    obtain ⟨k₀, v₀⟩ := kv
    by_cases h0 : k₀ = k
    · subst h0
      simp [dictInsert, alookup, hne']
    · simp only [dictInsert, h0, if_neg h0, alookup]
      split
      · rfl
      · exact ih

theorem dictInsert_lookup_self {κ ν : Type} [DecidableEq κ]
    (m : List (κ × ν)) (k : κ) (v : ν) :
    alookup k (dictInsert m k v) = some v := by
  induction m with
  | nil => simp [dictInsert, alookup]
  | cons kv rest ih =>
    obtain ⟨k₀, v₀⟩ := kv
    by_cases h0 : k₀ = k
    · subst h0; simp [dictInsert, alookup]
    · simp [dictInsert, h0, alookup, ih]

theorem dictInsert_length_of_mem {κ ν : Type} [DecidableEq κ]
    (m : List (κ × ν)) (k : κ) (v : ν) (h : k ∈ m.map Prod.fst) :
    (dictInsert m k v).length = m.length := by
  induction m with
  | nil => simp at h
  | cons kv rest ih =>
    obtain ⟨k₀, v₀⟩ := kv
    by_cases h0 : k₀ = k
    · simp [dictInsert, h0]
    · have hmem : k ∈ rest.map Prod.fst := by
        simp only [List.map_cons, List.mem_cons] at h
        rcases h with h | h
        · exact absurd h.symm h0
        · exact h
      simp [dictInsert, h0, ih hmem]

theorem dictInsert_length_of_not_mem {κ ν : Type} [DecidableEq κ]
    (m : List (κ × ν)) (k : κ) (v : ν) (h : k ∉ m.map Prod.fst) :
    (dictInsert m k v).length = m.length + 1 := by
  induction m with
  | nil => simp [dictInsert]
  | cons kv rest ih =>
    obtain ⟨k₀, v₀⟩ := kv
    simp only [List.map_cons, List.mem_cons] at h
    push_neg at h
    have h0 : k₀ ≠ k := fun hh => h.1 hh.symm
    simp [dictInsert, h0, ih h.2]

/-! ### config.py -/

def MAX_RETRIES : Nat := 3

def RETRY_BASE_DELAY : Nat := 1

def CACHE_TTL : Int := 300

def INITIAL_BUDGET_USAGE : Rat := 96 / 100

def TARGET_BUDGET_USAGE : Rat := 98 / 100

def STRATEGY_THRESHOLDS : List (String × Int × Int) :=
  [("diversification", (0, 30)),
   ("preference_weighted", (31, 60)),
   ("high_conviction", (61, 100))]

/-! ### api_client.py: `_api_call_with_retry` -/

/-- Outcome of one attempt of the wrapped operation: a returned value, or
one of the exception classes distinguished by `_api_call_with_retry`. -/
inductive Outcome (α : Type) where
  | success (v : α)
  | timeout
  | connectionFailure
  | otherError
deriving DecidableEq, Repr

def Outcome.transient {α : Type} : Outcome α → Prop
  | .timeout => True
  | .connectionFailure => True
  | _ => False

instance {α : Type} (o : Outcome α) : Decidable o.transient := by
  cases o <;> simp [Outcome.transient] <;> infer_instance

/-- Counters of `APIClient.stats`. -/
structure RetryStats where
  total_calls : Nat
  retries : Nat
  failures : Nat
deriving DecidableEq, Repr

/-- Result of `_api_call_with_retry`: the returned value (`none` on
failure), the updated counters, and the list of back-off sleeps in
seconds, in the order they were performed. -/
structure RetryResult (α : Type) where
  result : Option α
  stats : RetryStats
  sleeps : List Nat
deriving DecidableEq, Repr

/-- Body of the `for attempt in range(MAX_RETRIES)` loop of
`_api_call_with_retry`; `outcomes n` is the behaviour of the wrapped
call at attempt index `n`. -/
def retryGo {α : Type} (outcomes : Nat → Outcome α) :
    Nat → Nat → RetryStats → List Nat → RetryResult α
  | 0, _, stats, sleeps => ⟨none, stats, sleeps.reverse⟩
  | fuel + 1, attempt, stats, sleeps =>
    let stats1 : RetryStats := { stats with total_calls := stats.total_calls + 1 }
    match outcomes attempt with
    | .success v => ⟨some v, stats1, sleeps.reverse⟩
    | .timeout =>
      if attempt < MAX_RETRIES - 1 then
        retryGo outcomes fuel (attempt + 1)
          { stats1 with retries := stats1.retries + 1 }
          (RETRY_BASE_DELAY * 2 ^ attempt :: sleeps)
      else
        ⟨none, { stats1 with failures := stats1.failures + 1 }, sleeps.reverse⟩
    | .connectionFailure =>
      if attempt < MAX_RETRIES - 1 then
        retryGo outcomes fuel (attempt + 1)
          { stats1 with retries := stats1.retries + 1 }
          (RETRY_BASE_DELAY * 2 ^ attempt :: sleeps)
      else
        ⟨none, { stats1 with failures := stats1.failures + 1 }, sleeps.reverse⟩
    | .otherError =>
      ⟨none, { stats1 with failures := stats1.failures + 1 }, sleeps.reverse⟩

/-- `APIClient._api_call_with_retry`, starting from zeroed counters. -/
def apiCallWithRetry {α : Type} (outcomes : Nat → Outcome α) : RetryResult α :=
  retryGo outcomes MAX_RETRIES 0 ⟨0, 0, 0⟩ []

/-! ### strategies.py: `select_strategy` -/

/-- Iteration over `STRATEGY_THRESHOLDS.items()` returning the first band
containing `strength`, with the final `return` as fallback. -/
def firstBand (strength : Int) : List (String × Int × Int) → String
  | [] => "diversification"
  | (name, lo, hi) :: rest =>
    if lo ≤ strength ∧ strength ≤ hi then name else firstBand strength rest

/-- `PortfolioStrategies.select_strategy`, as a function of
`context['preference_strength']`. -/
def selectStrategy (strength : Int) : String :=
  firstBand strength STRATEGY_THRESHOLDS

/-! ### cache_manager.py: current-price cache -/

/-- State of `CacheManager` relevant to the current-price region: the
cache maps a ticker to a price together with the timestamp (in seconds)
at which it was stored, plus the hit/miss counters. -/
structure CMState where
  current_price_cache : List (String × Rat × Int)
  cache_hits : Nat
  cache_misses : Nat
deriving DecidableEq, Repr

/-- `CacheManager.get_current_price` at wall-clock time `now` (seconds):
returns the cached price only when the entry exists and its age is
strictly below `CACHE_TTL`, updating the hit/miss counters. -/
def getCurrentPrice (now : Int) (st : CMState) (ticker : String) :
    Option Rat × CMState :=
  match alookup ticker st.current_price_cache with
  | some (price, timestamp) =>
    if now - timestamp < CACHE_TTL then
      (some price, { st with cache_hits := st.cache_hits + 1 })
    else
      (none, { st with cache_misses := st.cache_misses + 1 })
  | none => (none, { st with cache_misses := st.cache_misses + 1 })

/-! ### config.py: stock universe -/

/-- Entry of `STOCKS` in config.py. -/
structure Stock where
  ticker : String
  sector : String
deriving DecidableEq, Repr

def STOCKS : List Stock :=
  [⟨"AAPL", "Technology"⟩,
   ⟨"MSFT", "Technology"⟩,
   ⟨"GOOG", "Technology"⟩,
   ⟨"AMZN", "Consumer Cyclical"⟩,
   ⟨"NVDA", "Technology"⟩,
   ⟨"META", "Communication Services"⟩,
   ⟨"TSLA", "Consumer Cyclical"⟩,
   ⟨"BRK.B", "Financial Services"⟩,
   ⟨"V", "Financial Services"⟩,
   ⟨"JNJ", "Healthcare"⟩,
   ⟨"WMT", "Consumer Defensive"⟩,
   ⟨"JPM", "Financial Services"⟩,
   ⟨"MA", "Financial Services"⟩,
   ⟨"PG", "Consumer Defensive"⟩,
   ⟨"UNH", "Healthcare"⟩,
   ⟨"HD", "Consumer Cyclical"⟩,
   ⟨"CVX", "Energy"⟩,
   ⟨"MRK", "Healthcare"⟩,
   ⟨"ABBV", "Healthcare"⟩,
   ⟨"KO", "Consumer Defensive"⟩,
   ⟨"PEP", "Consumer Defensive"⟩,
   ⟨"AVGO", "Technology"⟩,
   ⟨"COST", "Consumer Defensive"⟩,
   ⟨"MCD", "Consumer Cyclical"⟩,
   ⟨"TMO", "Healthcare"⟩,
   ⟨"CSCO", "Technology"⟩,
   ⟨"ACN", "Technology"⟩,
   ⟨"DHR", "Healthcare"⟩,
   ⟨"VZ", "Communication Services"⟩,
   ⟨"ADBE", "Technology"⟩,
   ⟨"NFLX", "Communication Services"⟩,
   ⟨"NKE", "Consumer Cyclical"⟩,
   ⟨"CRM", "Technology"⟩,
   ⟨"ORCL", "Technology"⟩,
   ⟨"ABT", "Healthcare"⟩,
   ⟨"PFE", "Healthcare"⟩,
   ⟨"INTC", "Technology"⟩,
   ⟨"DIS", "Communication Services"⟩,
   ⟨"CMCSA", "Communication Services"⟩,
   ⟨"AMD", "Technology"⟩,
   ⟨"T", "Communication Services"⟩,
   ⟨"COP", "Energy"⟩,
   ⟨"NEE", "Utilities"⟩,
   ⟨"UPS", "Industrials"⟩,
   ⟨"IBM", "Technology"⟩,
   ⟨"BA", "Industrials"⟩,
   ⟨"CAT", "Industrials"⟩,
   ⟨"GE", "Industrials"⟩,
   ⟨"HON", "Industrials"⟩,
   ⟨"MMM", "Industrials"⟩,
   ⟨"DE", "Industrials"⟩]

/-! ### Data model for allocation -/

/-- Map from ticker to price, as passed around as `prices: Dict[str, float]`. -/
abbrev Prices := List (String × Rat)

/-- Element of the allocation returned by the strategies:
`{'ticker': str, 'shares': int}`. -/
structure Position where
  ticker : String
  shares : Int
deriving DecidableEq, Repr

/-- Fields of the challenge context consumed by the strategies. -/
structure Context where
  budget : Rat
  preferred_sectors : List String
  avoided_sectors : List String
  preference_strength : Int

/-- Price of a ticker as read off the price map (defaulting to 0; every
theorem below only evaluates it at tickers the map covers). -/
def priceD (prices : Prices) (t : String) : Rat :=
  (alookup t prices).getD 0

/-- Total cost `sum(shares * prices[ticker])` of an allocation. -/
def totalCost (prices : Prices) (alloc : List Position) : Rat :=
  (alloc.map (fun pos => (pos.shares : Rat) * priceD prices pos.ticker)).sum

/-! ### strategies.py: the three portfolio builders -/

/-- Candidate pool common to all three strategies: stocks of the universe
whose sector is not avoided and whose ticker has a price, paired with that
price. -/
def pricedPool (avoided : List String) (prices : Prices) : List (Stock × Rat) :=
  STOCKS.filterMap (fun s =>
    if s.sector ∈ avoided then none
    else (alookup s.ticker prices).map (fun p => (s, p)))

/-- Python `candidates.sort(key=lambda x: x['price'])`: a stable sort
ascending by price. -/
def sortByPrice (l : List (Stock × Rat)) : List (Stock × Rat) :=
  l.mergeSort (fun a b => a.2 ≤ b.2)

/-- Share-emitting loop shared by the strategies: for each pool entry,
`shares = int(per / price)`, kept only when positive. -/
def allocEqual (per : Rat) (pool : List (Stock × Rat)) : List Position :=
  pool.filterMap (fun sp =>
    let shares := truncInt (per / sp.2)
    if 0 < shares then some ⟨sp.1.ticker, shares⟩ else none)

/-- Read a sector count out of the `sector_counts` dictionary. -/
def countOf (counts : List (String × Nat)) (sector : String) : Nat :=
  (alookup sector counts).getD 0

/-- Selection loop of `_diversification`: walk the sorted candidates,
stopping at `target` selections and capping each sector at `cap`. -/
def selectDiverse (target cap : Nat) :
    List (Stock × Rat) → Nat → List (String × Nat) → List (Stock × Rat)
  | [], _, _ => []
  | (s, p) :: rest, selCount, counts =>
    if target ≤ selCount then []
    else if countOf counts s.sector < cap then
      (s, p) :: selectDiverse target cap rest (selCount + 1)
        (dictInsert counts s.sector (countOf counts s.sector + 1))
    else selectDiverse target cap rest selCount counts

/-- `PortfolioStrategies._diversification`. -/
def diversification (ctx : Context) (prices : Prices) : List Position :=
  let budget := ctx.budget
  let safe_budget := budget * INITIAL_BUDGET_USAGE
  let candidates := sortByPrice (pricedPool ctx.avoided_sectors prices)
  let target_stocks : Nat := if budget < 100 then 3 else if budget < 500 then 5 else 7
  let max_per_sector := max 2 (target_stocks / 2)
  let selected := selectDiverse target_stocks max_per_sector candidates 0 []
  if selected.isEmpty then []
  else
    let per_stock_budget := safe_budget / (selected.length : Rat)
    allocEqual per_stock_budget selected

/-- Selection loop over the `other` pool of `_preference_weighted`:
at most one pick per sector, stopping at `target` selections; the sector
is marked used only when the pick actually emits shares. -/
def selectOther (per : Rat) (target : Nat) :
    List (Stock × Rat) → Nat → List (String × Nat) → List Position
  | [], _, _ => []
  | (s, p) :: rest, selCount, counts =>
    if target ≤ selCount then []
    else if countOf counts s.sector < 1 then
      let shares := truncInt (per / p)
      if 0 < shares then
        ⟨s.ticker, shares⟩ :: selectOther per target rest (selCount + 1)
          (dictInsert counts s.sector 1)
      else selectOther per target rest selCount counts
    else selectOther per target rest selCount counts

/-- Share of the preferred pool common to `_preference_weighted` and
`_high_conviction`: pick the first `min maxN len` cheapest preferred
stocks and split the preferred sub-budget evenly across them. -/
def prefPart (budgetPart : Rat) (maxN : Nat) (l : List (Stock × Rat)) :
    List Position :=
  if l.isEmpty then []
  else
    let target := min maxN l.length
    let per := budgetPart / (target : Rat)
    allocEqual per (l.take target)

/-- Selection over the `other` pool of `_preference_weighted`: spread
the other sub-budget over at most three stocks, one per sector. -/
def otherPartPW (budgetPart : Rat) (l : List (Stock × Rat)) : List Position :=
  if l.isEmpty then []
  else
    let target_other := min 3 l.length
    let per_other := budgetPart / (target_other : Rat)
    selectOther per_other target_other l 0 []

/-- Selection over the `other` pool of `_high_conviction`: one single
pick, the cheapest other-sector stock, bought with the whole other
sub-budget. -/
def otherPartHC (budgetPart : Rat) (l : List (Stock × Rat)) : List Position :=
  match l with
  | [] => []
  | sp :: _ =>
    if 0 < budgetPart then
      let shares := truncInt (budgetPart / sp.2)
      if 0 < shares then [⟨sp.1.ticker, shares⟩] else []
    else []

/-- `PortfolioStrategies._preference_weighted`. -/
def preferenceWeighted (ctx : Context) (prices : Prices) : List Position :=
  let budget := ctx.budget
  let preferred_budget := budget * (60 / 100 : Rat)
  let other_budget := budget * (36 / 100 : Rat)
  let pool := pricedPool ctx.avoided_sectors prices
  let preferred_stocks :=
    sortByPrice (pool.filter (fun sp => sp.1.sector ∈ ctx.preferred_sectors))
  let other_stocks :=
    sortByPrice (pool.filter (fun sp => sp.1.sector ∉ ctx.preferred_sectors))
  let preferred_selected := prefPart preferred_budget 3 preferred_stocks
  let other_selected := otherPartPW other_budget other_stocks
  preferred_selected ++ other_selected

/-- `PortfolioStrategies._high_conviction`. -/
def highConviction (ctx : Context) (prices : Prices) : List Position :=
  let budget := ctx.budget
  let preferred_budget := budget * (80 / 100 : Rat)
  let other_budget := budget * (16 / 100 : Rat)
  let pool := pricedPool ctx.avoided_sectors prices
  let preferred_stocks :=
    sortByPrice (pool.filter (fun sp => sp.1.sector ∈ ctx.preferred_sectors))
  let other_stocks :=
    sortByPrice (pool.filter (fun sp => sp.1.sector ∉ ctx.preferred_sectors))
  let preferred_selected := prefPart preferred_budget 4 preferred_stocks
  let other_selected := otherPartHC other_budget other_stocks
  preferred_selected ++ other_selected

/-- `PortfolioStrategies.build_portfolio`: dispatch on the strategy tag,
defaulting to diversification. -/
def buildPortfolio (strategy : String) (ctx : Context) (prices : Prices) :
    List Position :=
  if strategy = "diversification" then diversification ctx prices
  else if strategy = "preference_weighted" then preferenceWeighted ctx prices
  else if strategy = "high_conviction" then highConviction ctx prices
  else diversification ctx prices

/-! ### portfolio_validator.py: `validate_portfolio` -/

/-- Shape of the message returned by `validate_portfolio` (the embedded
form keeps the data interpolated into the Python f-string). -/
inductive ValidationMsg where
  | emptyPortfolio
  | missingPrice (ticker : String)
  | invalidShares (ticker : String) (shares : Int)
  | budgetBreach (total_cost budget : Rat)
  | lowUsage (usage_pct : Rat)
  | validMsg (total_cost usage_pct : Rat)
deriving DecidableEq, Repr

/-- Per-entry loop of `validate_portfolio`: accumulates the total cost,
returning early on a missing price or a non-positive share count. -/
def validateLoop (prices : Prices) :
    List Position → Rat → Except ValidationMsg Rat
  | [], acc => .ok acc
  | pos :: rest, acc =>
    match alookup pos.ticker prices with
    | none => .error (.missingPrice pos.ticker)
    | some price =>
      if pos.shares ≤ 0 then .error (.invalidShares pos.ticker pos.shares)
      else validateLoop prices rest (acc + (pos.shares : Rat) * price)

/-- `PortfolioValidator.validate_portfolio`. -/
def validatePortfolio (portfolio : List Position) (budget : Rat)
    (prices : Prices) : Bool × ValidationMsg :=
  if portfolio.isEmpty then (false, .emptyPortfolio)
  else
    match validateLoop prices portfolio 0 with
    | .error m => (false, m)
    | .ok total_cost =>
      if budget * (101 / 100 : Rat) < total_cost then
        (false, .budgetBreach total_cost budget)
      else
        let usage_pct := total_cost / budget * 100
        if usage_pct < 85 then (true, .lowUsage usage_pct)
        else (true, .validMsg total_cost usage_pct)

/-! ### portfolio_validator.py: `optimize_budget_usage` -/

/-- Python `min(prices.values())` on a non-empty list of values. -/
def minVals : List Rat → Rat
  | [] => 0
  | [x] => x
  | x :: y :: rest => min x (minVals (y :: rest))

/-- Inner `for opt_inv in optimized` loop: add `k` shares to the first
position with the given ticker. -/
def addToFirst (opt : List Position) (t : String) (k : Int) : List Position :=
  match opt with
  | [] => []
  | pos :: rest =>
    if pos.ticker = t then { pos with shares := pos.shares + k } :: rest
    else pos :: addToFirst rest t k

def hasTicker (l : List Position) (t : String) : Bool :=
  l.any (fun pos => pos.ticker = t)

/-- Sorting `sorted(portfolio, key=lambda x: prices[x['ticker']])`. -/
def sortByPriceP (prices : Prices) (l : List Position) : List Position :=
  l.mergeSort (fun a b => priceD prices a.ticker ≤ priceD prices b.ticker)

/-- Main loop of `optimize_budget_usage`: walk the price-sorted entries,
buying `int(remaining / price)` extra shares of each (credited to the
first matching position of the output list), and break as soon as
`remaining` drops below the cheapest price of the whole price map. -/
def optLoop (prices : Prices) (minP : Rat) :
    List Position → List Position → Rat → List Position
  | [], opt, _ => opt
  | inv :: rest, opt, remaining =>
    let price := priceD prices inv.ticker
    let additional := truncInt (remaining / price)
    let step : List Position × Rat :=
      if 0 < additional ∧ hasTicker opt inv.ticker then
        (addToFirst opt inv.ticker additional, remaining - (additional : Rat) * price)
      else (opt, remaining)
    if step.2 < minP then step.1 else optLoop prices minP rest step.1 step.2

/-- `PortfolioValidator.optimize_budget_usage`. -/
def optimizeBudgetUsage (portfolio : List Position) (budget : Rat)
    (prices : Prices) : List Position :=
  if portfolio.isEmpty then portfolio
  else
    let current_cost := totalCost prices portfolio
    let remaining := budget * TARGET_BUDGET_USAGE - current_cost
    if remaining < 0 then portfolio
    else
      optLoop prices (minVals (prices.map Prod.snd))
        (sortByPriceP prices portfolio) portfolio remaining

/-! ### cache_manager.py: historical region and persistence -/

/-- The historical price cache `{(ticker, date): price}`. -/
abbrev HistMap := List ((String × String) × Rat)

/-- `CacheManager.set_historical_price`: store the price, then call
`save_to_file` exactly when the resulting dictionary size is divisible
by 10.  The boolean records whether that save was triggered. -/
def setHistoricalPrice (hist : HistMap) (ticker date : String) (price : Rat) :
    HistMap × Bool :=
  let hist1 := dictInsert hist (ticker, date) price
  (hist1, hist1.length % 10 == 0)

/-- Python `key_str.split('|')` over the characters of the key. -/
def splitOnPipe : List Char → List (List Char)
  | [] => [[]]
  | c :: cs =>
    match splitOnPipe cs with
    | [] => [[]]
    | p :: ps => if c = '|' then [] :: p :: ps else (c :: p) :: ps

/-- Serialized form of one historical key: `f"{ticker}|{date}"`. -/
def encodeKey (ticker date : String) : List Char :=
  ticker.data ++ '|' :: date.data

/-- `CacheManager.save_to_file`: the `historical` mapping written to the
cache file, with tuple keys flattened to `ticker|date` strings. -/
def saveHistorical (hist : HistMap) : List (List Char × Rat) :=
  hist.map (fun e => (encodeKey e.1.1 e.1.2, e.2))

/-- Key-parsing loop of `load_from_file`: `ticker, date = key_str.split('|')`
raises unless the split has exactly two parts, and the surrounding
`except` then abandons the rest of the load (keeping what was read). -/
def loadEntries : List (List Char × Rat) → HistMap
  | [] => []
  | (k, p) :: rest =>
    match splitOnPipe k with
    | [t, d] => ((⟨t⟩, ⟨d⟩), p) :: loadEntries rest
    | _ => []

/-- `CacheManager.load_from_file`: a missing cache file (`none`) leaves
the historical region empty; otherwise the stored entries are parsed. -/
def loadFromFile : Option (List (List Char × Rat)) → HistMap
  | none => []
  | some entries => loadEntries entries

/-! ### api_client.py: historical fetching (cache-aware fan-out) -/

/-- `APIClient.get_historical_price` for one ticker, with the outcome of
its single retry-guarded API fetch abstracted as `fetch t` (`none` when
the retries were exhausted or the response was empty).  Returns the
price (or `none`), the updated historical cache, and the list of fetch
calls issued. -/
def getHistoricalPriceC (fetch : String → Option Rat) (hist : HistMap)
    (ticker date : String) : Option Rat × HistMap × List String :=
  match alookup (ticker, date) hist with
  | some p => (some p, hist, [])
  | none =>
    match fetch ticker with
    | some p => (some p, dictInsert hist (ticker, date) p, [ticker])
    | none => (none, hist, [ticker])

/-- Worker-pool phase of `get_historical_prices_concurrent`, linearized:
each cache-missed ticker runs `get_historical_price` once; successes are
merged into the result, failures are skipped.  (Each worker touches only
its own `(ticker, date)` key, so the merge order is the only freedom of
the actual thread pool; the claims proved below are order-independent.) -/
def fetchLoop (fetch : String → Option Rat) (date : String) :
    List String → HistMap → List (String × Rat) × HistMap × List String
  | [], hist => ([], hist, [])
  | t :: rest, hist =>
    let one := getHistoricalPriceC fetch hist t date
    let more := fetchLoop fetch date rest one.2.1
    (match one.1 with
     | some p => (t, p) :: more.1
     | none => more.1,
     more.2.1, one.2.2 ++ more.2.2)

/-- `APIClient.get_historical_prices_concurrent`: resolve cache hits
first, then fan out one guarded fetch per missed ticker. -/
def getHistoricalPricesConcurrent (fetch : String → Option Rat)
    (hist : HistMap) (tickers : List String) (date : String) :
    List (String × Rat) × HistMap × List String :=
  let hits := tickers.filterMap (fun t => (alookup (t, date) hist).map ((t, ·)))
  let needFetch := tickers.filter (fun t => (alookup (t, date) hist).isNone)
  let fetched := fetchLoop fetch date needFetch hist
  (hits ++ fetched.1, fetched.2.1, fetched.2.2)

/-! ### api_client.py: current-price fetching (single batched call) -/

/-- Item of the response of the quotes endpoint, as read by
`get_current_prices`: `item.get('ticker')` and `item.get('last')`. -/
structure QuoteItem where
  ticker : Option String
  last : Option Rat
deriving DecidableEq, Repr

/-- `CacheManager.set_current_price`: overwrite the entry with a fresh
timestamp, unconditionally. -/
def setCurrentPrice (now : Int) (st : CMState) (ticker : String) (price : Rat) :
    CMState :=
  { st with current_price_cache := dictInsert st.current_price_cache ticker (price, now) }

/-- Value `get_current_price` would serve for a ticker from a given
cache region: the entry when present and younger than the TTL. -/
def currentHit (now : Int) (cache : List (String × Rat × Int)) (t : String) :
    Option Rat :=
  match alookup t cache with
  | some (p, ts) => if now - ts < CACHE_TTL then some p else none
  | none => none

/-- Cache-partition loop of `get_current_prices`: each ticker is looked
up through `get_current_price` (updating the hit/miss counters); hits go
into the result, misses into `need_fetch`. -/
def collectCurrent (now : Int) :
    List String → CMState → List (String × Rat) × List String × CMState
  | [], st => ([], [], st)
  | t :: rest, st =>
    let r := getCurrentPrice now st t
    let more := collectCurrent now rest r.2
    match r.1 with
    | some p => ((t, p) :: more.1, more.2.1, more.2.2)
    | none => (more.1, t :: more.2.1, more.2.2)

/-- Response-merging loop of `get_current_prices`: items whose ticker
and price are both truthy (present, non-empty, non-zero) are written to
the result dictionary and written through to the cache. -/
def mergeQuotes (now : Int) :
    List QuoteItem → List (String × Rat) → CMState → List (String × Rat) × CMState
  | [], prices, st => (prices, st)
  | item :: rest, prices, st =>
    match item.ticker, item.last with
    | some t, some p =>
      if t ≠ "" ∧ p ≠ 0 then
        mergeQuotes now rest (dictInsert prices t p) (setCurrentPrice now st t p)
      else mergeQuotes now rest prices st
    | _, _ => mergeQuotes now rest prices st

/-- `APIClient.get_current_prices`: resolve cache hits, then issue ONE
batched quotes call for the whole `need_fetch` list (none when every
ticker was cached).  `fetchBatch` abstracts the retry-guarded POST
(`none` when retries were exhausted); the third component logs the
batched calls issued, each entry being the requested ticker list. -/
def getCurrentPrices (now : Int) (fetchBatch : List String → Option (List QuoteItem))
    (st : CMState) (tickers : List String) :
    List (String × Rat) × CMState × List (List String) :=
  let c := collectCurrent now tickers st
  match c.2.1 with
  | [] => (c.1, c.2.2, [])
  | t :: rest =>
    match fetchBatch (t :: rest) with
    | some data =>
      let m := mergeQuotes now data c.1 c.2.2
      (m.1, m.2, [t :: rest])
    | none => (c.1, c.2.2, [t :: rest])

/-- Historical cache holding ten entries, used to exercise
`set_historical_price` on an overwrite. -/
def histTen : HistMap :=
  [(("T0", "d"), 1), (("T1", "d"), 1), (("T2", "d"), 1), (("T3", "d"), 1),
   (("T4", "d"), 1), (("T5", "d"), 1), (("T6", "d"), 1), (("T7", "d"), 1),
   (("T8", "d"), 1), (("T9", "d"), 1)]

/-! ## Theorems -/

theorem retryGo_succ {α : Type} (outcomes : Nat → Outcome α) (fuel attempt : Nat)
    (stats : RetryStats) (sleeps : List Nat) :
    retryGo outcomes (fuel + 1) attempt stats sleeps =
      (let stats1 : RetryStats := { stats with total_calls := stats.total_calls + 1 }
       match outcomes attempt with
       | .success v => ⟨some v, stats1, sleeps.reverse⟩
       | .timeout =>
         if attempt < MAX_RETRIES - 1 then
           retryGo outcomes fuel (attempt + 1)
             { stats1 with retries := stats1.retries + 1 }
             (RETRY_BASE_DELAY * 2 ^ attempt :: sleeps)
         else
           ⟨none, { stats1 with failures := stats1.failures + 1 }, sleeps.reverse⟩
       | .connectionFailure =>
         if attempt < MAX_RETRIES - 1 then
           retryGo outcomes fuel (attempt + 1)
             { stats1 with retries := stats1.retries + 1 }
             (RETRY_BASE_DELAY * 2 ^ attempt :: sleeps)
         else
           ⟨none, { stats1 with failures := stats1.failures + 1 }, sleeps.reverse⟩
       | .otherError =>
         ⟨none, { stats1 with failures := stats1.failures + 1 }, sleeps.reverse⟩) := rfl

/-- C8: for every integer preference strength, `select_strategy` picks
diversification on [0, 30], preference_weighted on [31, 60],
high_conviction on [61, 100], and falls back to diversification on any
out-of-range strength. -/
theorem select_strategy_bands (s : Int) :
    (0 ≤ s ∧ s ≤ 30 → selectStrategy s = "diversification") ∧
    (31 ≤ s ∧ s ≤ 60 → selectStrategy s = "preference_weighted") ∧
    (61 ≤ s ∧ s ≤ 100 → selectStrategy s = "high_conviction") ∧
    ((s < 0 ∨ 100 < s) → selectStrategy s = "diversification") := by
  refine ⟨?_, ?_, ?_, ?_⟩ <;> intro h <;>
    simp only [selectStrategy, STRATEGY_THRESHOLDS, firstBand] <;>
    split_ifs <;> first | rfl | omega

/-- Witness for `select_strategy_bands` at a strength inside each band
and one out of range. -/
theorem select_strategy_bands_witness :
    selectStrategy 15 = "diversification" ∧
    selectStrategy 45 = "preference_weighted" ∧
    selectStrategy 75 = "high_conviction" ∧
    selectStrategy 101 = "diversification" :=
  ⟨(select_strategy_bands 15).1 (by norm_num),
   (select_strategy_bands 45).2.1 (by norm_num),
   (select_strategy_bands 75).2.2.1 (by norm_num),
   (select_strategy_bands 101).2.2.2 (Or.inr (by norm_num))⟩

/-- C5: `get_current_price` returns the cached value exactly when an
entry for the ticker is present with age strictly below the TTL,
incrementing the hit counter; an absent or expired entry yields a miss
and bumps the miss counter; the cache contents are untouched, so no
fetch or refresh happens. -/
theorem get_current_price_spec (now : Int) (st : CMState) (t : String) :
    (getCurrentPrice now st t).2.current_price_cache = st.current_price_cache ∧
    (∀ p ts, alookup t st.current_price_cache = some (p, ts) →
      now - ts < CACHE_TTL →
      (getCurrentPrice now st t).1 = some p ∧
      (getCurrentPrice now st t).2.cache_hits = st.cache_hits + 1 ∧
      (getCurrentPrice now st t).2.cache_misses = st.cache_misses) ∧
    (∀ p ts, alookup t st.current_price_cache = some (p, ts) →
      CACHE_TTL ≤ now - ts →
      (getCurrentPrice now st t).1 = none ∧
      (getCurrentPrice now st t).2.cache_misses = st.cache_misses + 1 ∧
      (getCurrentPrice now st t).2.cache_hits = st.cache_hits) ∧
    (alookup t st.current_price_cache = none →
      (getCurrentPrice now st t).1 = none ∧
      (getCurrentPrice now st t).2.cache_misses = st.cache_misses + 1 ∧
      (getCurrentPrice now st t).2.cache_hits = st.cache_hits) := by
  refine ⟨?_, ?_, ?_, ?_⟩
  · unfold getCurrentPrice
    rcases h : alookup t st.current_price_cache with _ | ⟨p, ts⟩
    · simp
    · simp only
      split <;> simp
  · intro p ts h hfresh
    simp [getCurrentPrice, h, hfresh]
  · intro p ts h hstale
    have : ¬ (now - ts < CACHE_TTL) := not_lt.mpr hstale
    simp [getCurrentPrice, h, this]
  · intro h
    simp [getCurrentPrice, h]

/-- Witness for `get_current_price_spec`: a fresh entry is served as a
hit, a stale one and an absent one are misses. -/
theorem get_current_price_spec_witness :
    (getCurrentPrice 100 ⟨[("AAPL", (10, 0))], 0, 0⟩ "AAPL").1 = some 10 ∧
    (getCurrentPrice 400 ⟨[("AAPL", (10, 0))], 0, 0⟩ "AAPL").1 = none ∧
    (getCurrentPrice 100 ⟨[("AAPL", (10, 0))], 0, 0⟩ "MSFT").1 = none :=
  ⟨((get_current_price_spec 100 ⟨[("AAPL", (10, 0))], 0, 0⟩ "AAPL").2.1
      10 0 (by decide) (by decide)).1,
   ((get_current_price_spec 400 ⟨[("AAPL", (10, 0))], 0, 0⟩ "AAPL").2.2.1
      10 0 (by decide) (by decide)).1,
   ((get_current_price_spec 100 ⟨[("AAPL", (10, 0))], 0, 0⟩ "MSFT").2.2.2
      (by decide)).1⟩

/-- C2 counterexample: when every attempt times out, the executor
performs exactly two retries with back-off sleeps of 1s and 2s — not
three retries with sleeps 1s, 2s, 4s as claimed. -/
theorem retry_all_transient_counterexample :
    (apiCallWithRetry (α := Nat) (fun _ => Outcome.timeout)).stats.retries = 2 ∧
    (apiCallWithRetry (α := Nat) (fun _ => Outcome.timeout)).sleeps = [1, 2] ∧
    ¬ ((apiCallWithRetry (α := Nat) (fun _ => Outcome.timeout)).stats.retries = 3 ∧
       (apiCallWithRetry (α := Nat) (fun _ => Outcome.timeout)).sleeps = [1, 2, 4]) := by
  have h : apiCallWithRetry (α := Nat) (fun _ => Outcome.timeout) =
      ⟨none, ⟨3, 2, 1⟩, [1, 2]⟩ := rfl
  rw [h]
  refine ⟨rfl, rfl, ?_⟩
  rintro ⟨h1, -⟩
  exact absurd h1 (by decide)

/-- C2 amended: when the wrapped operation fails with a transient error
(timeout or connection failure) on every attempt, `_api_call_with_retry`
makes `MAX_RETRIES = 3` attempts in total, i.e. retries twice, sleeping
`RETRY_BASE_DELAY * 2 ^ attempt` seconds before each retry (1s, 2s);
it then returns `None` instead of raising, having incremented the
failure counter once, the retry counter once per retry (twice), and the
total-calls counter once per attempt (three times). -/
theorem retry_all_transient (α : Type) (outcomes : Nat → Outcome α)
    (h : ∀ i, i < MAX_RETRIES → (outcomes i).transient) :
    (apiCallWithRetry outcomes).result = none ∧
    (apiCallWithRetry outcomes).stats.total_calls = 3 ∧
    (apiCallWithRetry outcomes).stats.retries = 2 ∧
    (apiCallWithRetry outcomes).stats.failures = 1 ∧
    (apiCallWithRetry outcomes).sleeps = [1, 2] := by
  have h0 := h 0 (by norm_num [MAX_RETRIES])
  have h1 := h 1 (by norm_num [MAX_RETRIES])
  have h2 := h 2 (by norm_num [MAX_RETRIES])
  rcases o0 : outcomes 0 with v0 | _ | _ | _ <;> rw [o0] at h0 <;>
    rcases o1 : outcomes 1 with v1 | _ | _ | _ <;> rw [o1] at h1 <;>
      rcases o2 : outcomes 2 with v2 | _ | _ | _ <;> rw [o2] at h2 <;>
        simp_all [apiCallWithRetry, retryGo, MAX_RETRIES, RETRY_BASE_DELAY,
          Outcome.transient]

/-- Witness for `retry_all_transient` on the always-timeout operation. -/
theorem retry_all_transient_witness :
    (apiCallWithRetry (α := Nat) (fun _ => Outcome.timeout)).result = none ∧
    (apiCallWithRetry (α := Nat) (fun _ => Outcome.timeout)).sleeps = [1, 2] :=
  ⟨(retry_all_transient Nat (fun _ => Outcome.timeout)
      (fun i _ => by simp [Outcome.transient])).1,
   (retry_all_transient Nat (fun _ => Outcome.timeout)
      (fun i _ => by simp [Outcome.transient])).2.2.2.2⟩

/-- C7 counterexample: writing a price for a key that is already cached
(hence not a new write) still triggers a save whenever the cache size is
a multiple of ten. -/
theorem set_historical_save_counterexample :
    (setHistoricalPrice histTen "T0" "d" 5).2 = true ∧
    ("T0", "d") ∈ histTen.map Prod.fst := by
  constructor
  · decide
  · decide

/-- C7 amended: `set_historical_price` stores the price under
`(ticker, date)` and calls `save_to_file` exactly when the number of
entries of the historical cache after the write is divisible by ten:
a new key grows the cache by one (so from an empty cache with only new
writes, every 10th write saves), but an overwrite with the size already
divisible by ten saves as well. -/
theorem set_historical_save_spec (hist : HistMap) (t d : String) (p : Rat) :
    alookup (t, d) (setHistoricalPrice hist t d p).1 = some p ∧
    ((setHistoricalPrice hist t d p).2 = true ↔
      (setHistoricalPrice hist t d p).1.length % 10 = 0) ∧
    ((t, d) ∉ hist.map Prod.fst →
      (setHistoricalPrice hist t d p).1.length = hist.length + 1) ∧
    ((t, d) ∈ hist.map Prod.fst →
      (setHistoricalPrice hist t d p).1.length = hist.length) := by
  refine ⟨dictInsert_lookup_self hist (t, d) p, ?_, ?_, ?_⟩
  · simp [setHistoricalPrice, Nat.beq_eq_true_eq]
  · intro h
    simp [setHistoricalPrice, dictInsert_length_of_not_mem hist (t, d) p h]
  · intro h
    simp [setHistoricalPrice, dictInsert_length_of_mem hist (t, d) p h]

/-- Witness for `set_historical_save_spec`: a fresh write into an empty
cache stores the price and does not save. -/
theorem set_historical_save_spec_witness :
    alookup ("AAPL", "2024-01-02") (setHistoricalPrice [] "AAPL" "2024-01-02" 7).1 =
      some 7 ∧
    (setHistoricalPrice [] "AAPL" "2024-01-02" 7).1.length = 1 :=
  ⟨(set_historical_save_spec [] "AAPL" "2024-01-02" 7).1,
   (set_historical_save_spec [] "AAPL" "2024-01-02" 7).2.2.1 (by decide)⟩

theorem splitOnPipe_ne_nil (cs : List Char) : splitOnPipe cs ≠ [] := by
  induction cs with
  | nil => simp [splitOnPipe]
  | cons c rest ih =>
    rcases hr : splitOnPipe rest with _ | ⟨p, ps⟩
    · exact absurd hr ih
    · simp only [splitOnPipe, hr]
      split <;> simp

theorem splitOnPipe_no_pipe (cs : List Char) (h : '|' ∉ cs) :
    splitOnPipe cs = [cs] := by
  induction cs with
  | nil => rfl
  | cons c rest ih =>
    simp only [List.mem_cons] at h
    push_neg at h
    have hc : c ≠ '|' := fun hh => h.1 hh.symm
    simp only [splitOnPipe, ih h.2, if_neg hc]

theorem splitOnPipe_encode (t d : List Char) (ht : '|' ∉ t) (hd : '|' ∉ d) :
    splitOnPipe (t ++ '|' :: d) = [t, d] := by
  induction t with
  | nil =>
    simp [splitOnPipe, splitOnPipe_no_pipe d hd]
  | cons c t' ih =>
    simp only [List.mem_cons] at ht
    push_neg at ht
    have hc : c ≠ '|' := fun hh => ht.1 hh.symm
    simp only [List.cons_append, splitOnPipe, List.append_eq, ih ht.2, if_neg hc]

theorem string_mk_data (s : String) : String.mk s.data = s := rfl

theorem loadEntries_save :
    ∀ hist : HistMap, (∀ e ∈ hist, '|' ∉ e.1.1.data ∧ '|' ∉ e.1.2.data) →
      loadEntries (saveHistorical hist) = hist := by
  intro hist
  induction hist with
  | nil => intro _; rfl
  | cons e rest ih =>
    intro h
    obtain ⟨⟨t, d⟩, p⟩ := e
    have he := h _ (List.mem_cons_self _ _)
    simp only [saveHistorical, List.map_cons, loadEntries, encodeKey]
    rw [splitOnPipe_encode t.data d.data he.1 he.2]
    simp only [string_mk_data]
    have h2 : loadEntries (saveHistorical rest) = rest :=
      ih (fun e he' => h e (List.mem_cons_of_mem _ he'))
    simp only [saveHistorical, encodeKey] at h2
    rw [h2]

/-- C6: as long as no ticker or date contains the `|` separator, saving
the historical cache and loading it into a fresh instance reproduces the
identical (ticker, date) → price mapping, and a missing cache file on
first run yields an empty historical region. -/
theorem historical_cache_roundtrip (hist : HistMap)
    (h : ∀ e ∈ hist, '|' ∉ e.1.1.data ∧ '|' ∉ e.1.2.data) :
    loadFromFile (some (saveHistorical hist)) = hist ∧
    loadFromFile none = ([] : HistMap) :=
  ⟨loadEntries_save hist h, rfl⟩

/-- Witness for `historical_cache_roundtrip` on a two-entry cache. -/
theorem historical_cache_roundtrip_witness :
    loadFromFile (some (saveHistorical
      [(("AAPL", "2024-01-02"), 7), (("MSFT", "2024-01-03"), 8)])) =
      [(("AAPL", "2024-01-02"), 7), (("MSFT", "2024-01-03"), 8)] :=
  (historical_cache_roundtrip
    [(("AAPL", "2024-01-02"), 7), (("MSFT", "2024-01-03"), 8)]
    (by decide)).1

theorem validateLoop_ok (prices : Prices) :
    ∀ (l : List Position) (acc : Rat),
      (∀ pos ∈ l, (alookup pos.ticker prices).isSome ∧ 0 < pos.shares) →
      validateLoop prices l acc = .ok (acc + totalCost prices l) := by
  intro l
  induction l with
  | nil => intro acc _; simp [validateLoop, totalCost]
  | cons pos rest ih =>
    intro acc h
    have hp := h pos (List.mem_cons_self _ _)
    rcases hl : alookup pos.ticker prices with _ | price
    · rw [hl] at hp; simp at hp
    · have hs : ¬ pos.shares ≤ 0 := not_le.mpr hp.2
      simp only [validateLoop, hl, if_neg hs]
      rw [ih _ (fun p hp' => h p (List.mem_cons_of_mem _ hp'))]
      congr 1
      simp only [totalCost, List.map_cons, List.sum_cons, priceD, hl, Option.getD_some]
      ring

theorem validateLoop_err (prices : Prices) :
    ∀ (l : List Position) (acc : Rat),
      (∃ pos ∈ l, alookup pos.ticker prices = none ∨ pos.shares ≤ 0) →
      ∃ m, validateLoop prices l acc = .error m := by
  intro l
  induction l with
  | nil => intro acc h; simp at h
  | cons pos rest ih =>
    intro acc h
    rcases hl : alookup pos.ticker prices with _ | price
    · exact ⟨.missingPrice pos.ticker, by simp [validateLoop, hl]⟩
    · by_cases hs : pos.shares ≤ 0
      · exact ⟨.invalidShares pos.ticker pos.shares, by simp [validateLoop, hl, hs]⟩
      · obtain ⟨p, hp, hbad⟩ := h
        rcases List.mem_cons.mp hp with rfl | hp'
        · rcases hbad with hb | hb
          · rw [hl] at hb; cases hb
          · exact absurd hb hs
        · obtain ⟨m, hm⟩ := ih (acc + (pos.shares : Rat) * price) ⟨p, hp', hbad⟩
          exact ⟨m, by simp [validateLoop, hl, hs, hm]⟩

/-- C4: `validate_portfolio` reports invalid exactly when the
allocation is empty, some ticker lacks a price, some share count is
non-positive, or the total cost exceeds `budget * 1.01`; and any
allocation passing those checks whose total cost lies between 85% and
101% of the budget inclusive is accepted. -/
theorem validate_portfolio_spec (portfolio : List Position) (budget : Rat)
    (prices : Prices) :
    ((validatePortfolio portfolio budget prices).1 = false ↔
      (portfolio = [] ∨
       (∃ pos ∈ portfolio, alookup pos.ticker prices = none ∨ pos.shares ≤ 0) ∨
       budget * (101 / 100 : Rat) < totalCost prices portfolio)) ∧
    ((portfolio ≠ [] ∧
      (∀ pos ∈ portfolio, (alookup pos.ticker prices).isSome ∧ 0 < pos.shares) ∧
      budget * (85 / 100 : Rat) ≤ totalCost prices portfolio ∧
      totalCost prices portfolio ≤ budget * (101 / 100 : Rat)) →
      (validatePortfolio portfolio budget prices).1 = true) := by
  have main : (validatePortfolio portfolio budget prices).1 = false ↔
      (portfolio = [] ∨
       (∃ pos ∈ portfolio, alookup pos.ticker prices = none ∨ pos.shares ≤ 0) ∨
       budget * (101 / 100 : Rat) < totalCost prices portfolio) := by
    rcases hport : portfolio with _ | ⟨pos, rest⟩
    · simp [validatePortfolio]
    · rw [← hport]
      have hne : portfolio.isEmpty = false := by rw [hport]; rfl
      by_cases hbad : ∃ pos ∈ portfolio, alookup pos.ticker prices = none ∨
          pos.shares ≤ 0
      · obtain ⟨m, hm⟩ := validateLoop_err prices portfolio 0 hbad
        simp [validatePortfolio, hne, hm, hbad]
      · push_neg at hbad
        have hgood : ∀ pos ∈ portfolio, (alookup pos.ticker prices).isSome ∧
            0 < pos.shares := by
          intro p hp
          obtain ⟨h1, h2⟩ := hbad p hp
          exact ⟨Option.isSome_iff_ne_none.mpr h1, h2⟩
        have hok := validateLoop_ok prices portfolio 0 hgood
        rw [zero_add] at hok
        have hnonnil : portfolio ≠ [] := by rw [hport]; simp
        by_cases hcost : budget * (101 / 100 : Rat) < totalCost prices portfolio
        · simp [validatePortfolio, hne, hok, hcost, hnonnil]
        · simp only [validatePortfolio, hne, Bool.false_eq_true, if_false, hok,
            if_neg hcost]
          constructor
          · intro hfalse
            split at hfalse <;> cases hfalse
          · intro hdisj
            rcases hdisj with h | h | h
            · exact absurd h hnonnil
            · obtain ⟨p, hp, hb⟩ := h
              obtain ⟨h1, h2⟩ := hbad p hp
              rcases hb with hb | hb
              · exact absurd hb h1
              · exact absurd hb (not_le.mpr h2)
            · exact absurd h hcost
  refine ⟨main, ?_⟩
  rintro ⟨h1, h2, _, h4⟩
  rcases hv : (validatePortfolio portfolio budget prices).1 with _ | _
  · rcases main.mp hv with h | h | h
    · exact absurd h h1
    · obtain ⟨p, hp, hb⟩ := h
      obtain ⟨g1, g2⟩ := h2 p hp
      rcases hb with hb | hb
      · rw [hb] at g1; cases g1
      · exact absurd hb (not_le.mpr g2)
    · exact absurd h (not_lt.mpr h4)
  · rfl

/-- Witness for `validate_portfolio_spec`: a two-share AAPL portfolio at
100% budget usage is accepted, and an empty portfolio is rejected. -/
theorem validate_portfolio_spec_witness :
    (validatePortfolio [⟨"AAPL", 2⟩] 200 [("AAPL", 100)]).1 = true ∧
    (validatePortfolio [] 200 [("AAPL", 100)]).1 = false :=
  ⟨(validate_portfolio_spec [⟨"AAPL", 2⟩] 200 [("AAPL", 100)]).2
     (by refine ⟨by simp, ?_, by norm_num [totalCost, priceD, alookup], by norm_num [totalCost, priceD, alookup]⟩
         intro pos hpos
         simp only [List.mem_singleton] at hpos
         subst hpos
         exact ⟨by decide, by decide⟩),
   (validate_portfolio_spec [] 200 [("AAPL", 100)]).1.mpr (Or.inl rfl)⟩

theorem fetchLoop_spec (fetch : String → Option Rat) (d : String) :
    ∀ (ts : List String) (hist : HistMap), ts.Nodup →
      (∀ t ∈ ts, alookup (t, d) hist = none) →
      (fetchLoop fetch d ts hist).2.2 = ts ∧
      (fetchLoop fetch d ts hist).1 =
        ts.filterMap (fun t => (fetch t).map ((t, ·))) := by
  intro ts
  induction ts with
  | nil => intro hist _ _; exact ⟨rfl, rfl⟩
  | cons t rest ih =>
    intro hist hnd hmiss
    have hm := hmiss t (List.mem_cons_self _ _)
    have hndr : rest.Nodup := (List.nodup_cons.mp hnd).2
    have htr : t ∉ rest := (List.nodup_cons.mp hnd).1
    rcases hf : fetch t with _ | p
    · have hrest : ∀ t' ∈ rest, alookup (t', d) hist = none :=
        fun t' ht' => hmiss t' (List.mem_cons_of_mem _ ht')
      have hind := ih hist hndr hrest
      simp only [fetchLoop, getHistoricalPriceC, hm, hf]
      exact ⟨by simp [hind.1], by simp [List.filterMap_cons, hf, hind.2]⟩
    · have hrest : ∀ t' ∈ rest, alookup (t', d) (dictInsert hist (t, d) p) = none := by
        intro t' ht'
        have hne : (t', d) ≠ (t, d) := by
          intro hh
          exact htr (by rw [← (Prod.mk.injEq t' d t d).mp hh |>.1]; exact ht')
        rw [dictInsert_lookup_ne hist (t, d) (t', d) p hne]
        exact hmiss t' (List.mem_cons_of_mem _ ht')
      have hind := ih (dictInsert hist (t, d) p) hndr hrest
      simp only [fetchLoop, getHistoricalPriceC, hm, hf]
      exact ⟨by simp [hind.1], by simp [List.filterMap_cons, hf, hind.2]⟩

theorem getCurrentPrice_currentHit (now : Int) (st : CMState) (t : String) :
    (getCurrentPrice now st t).1 = currentHit now st.current_price_cache t ∧
    (getCurrentPrice now st t).2.current_price_cache = st.current_price_cache := by
  unfold getCurrentPrice currentHit
  rcases alookup t st.current_price_cache with _ | ⟨p, ts⟩
  · exact ⟨rfl, rfl⟩
  · simp only
    split <;> exact ⟨rfl, rfl⟩

theorem collectCurrent_spec (now : Int) :
    ∀ (ts : List String) (st : CMState),
      (collectCurrent now ts st).1 =
        ts.filterMap (fun t => (currentHit now st.current_price_cache t).map ((t, ·))) ∧
      (collectCurrent now ts st).2.1 =
        ts.filter (fun t => (currentHit now st.current_price_cache t).isNone) ∧
      (collectCurrent now ts st).2.2.current_price_cache = st.current_price_cache := by
  intro ts
  induction ts with
  | nil => intro st; exact ⟨rfl, rfl, rfl⟩
  | cons t rest ih =>
    intro st
    have hg := getCurrentPrice_currentHit now st t
    have hih := ih (getCurrentPrice now st t).2
    rw [hg.2] at hih
    rcases hc : (getCurrentPrice now st t).1 with _ | p
    · have hch : currentHit now st.current_price_cache t = none := hg.1.symm.trans hc
      refine ⟨?_, ?_, ?_⟩
      · simp [collectCurrent, hc, hch, hih.1, List.filterMap_cons]
      · simp [collectCurrent, hc, hch, hih.2.1, List.filter_cons]
      · simp [collectCurrent, hc, hih.2.2]
    · have hch : currentHit now st.current_price_cache t = some p := hg.1.symm.trans hc
      refine ⟨?_, ?_, ?_⟩
      · simp [collectCurrent, hc, hch, hih.1, List.filterMap_cons]
      · simp [collectCurrent, hc, hch, hih.2.1, List.filter_cons]
      · simp [collectCurrent, hc, hih.2.2]

/-- C9 counterexample: fetching three tickers with none pre-cached
through `get_current_prices` issues a single batched fetch call for all
three — not one call per cache-missed ticker as claimed. -/
theorem current_prices_batch_counterexample :
    ((getCurrentPrices 0 (fun _ => some []) ⟨[], 0, 0⟩ ["A", "B", "C"]).2.2).length = 1 ∧
    (["A", "B", "C"].filter
      (fun t => (currentHit 0 ([] : List (String × Rat × Int)) t).isNone)).length = 3 ∧
    (1 : Nat) ≠ 3 :=
  ⟨rfl, rfl, by decide⟩

/-- C9 amended: in a many-ticker fetch, tickers with a valid cache
entry are resolved from the cache and are excluded from every fetch.
In the historical concurrent fetch, exactly one retry-guarded fetch
call is issued per cache-missed ticker (the fetch log is exactly the
list of missed tickers, so 20 tickers with 5 pre-cached issue 15
calls), and a ticker whose fetch fails is omitted from the returned
mapping instead of raising.  In the current-price fetch, the
cache-missed tickers are fetched with a single batched call listing
exactly the missed tickers — one call in total, and none when every
ticker is cached. -/
theorem many_ticker_fetch_spec (fetch : String → Option Rat) (hist : HistMap)
    (tickers : List String) (date : String)
    (now : Int) (fetchBatch : List String → Option (List QuoteItem))
    (cst : CMState) (ctickers : List String) (hnd : tickers.Nodup) :
    (getHistoricalPricesConcurrent fetch hist tickers date).2.2 =
      tickers.filter (fun t => (alookup (t, date) hist).isNone) ∧
    (∀ t p, t ∈ tickers → alookup (t, date) hist = some p →
      (t, p) ∈ (getHistoricalPricesConcurrent fetch hist tickers date).1) ∧
    (∀ t, t ∈ tickers → alookup (t, date) hist = none → fetch t = none →
      t ∉ (getHistoricalPricesConcurrent fetch hist tickers date).1.map Prod.fst) ∧
    (getCurrentPrices now fetchBatch cst ctickers).2.2 =
      (if ctickers.filter
          (fun t => (currentHit now cst.current_price_cache t).isNone) = []
       then []
       else [ctickers.filter
          (fun t => (currentHit now cst.current_price_cache t).isNone)]) := by
  have hndf : (tickers.filter (fun t => (alookup (t, date) hist).isNone)).Nodup :=
    hnd.filter _
  have hmiss : ∀ t ∈ tickers.filter (fun t => (alookup (t, date) hist).isNone),
      alookup (t, date) hist = none := by
    intro t ht
    have := (List.mem_filter.mp ht).2
    simpa [Option.isNone_iff_eq_none] using this
  have hfl := fetchLoop_spec fetch date
    (tickers.filter (fun t => (alookup (t, date) hist).isNone)) hist hndf hmiss
  refine ⟨?_, ?_, ?_, ?_⟩
  · simp only [getHistoricalPricesConcurrent]
    exact hfl.1
  · intro t p ht hp
    simp only [getHistoricalPricesConcurrent]
    refine List.mem_append_left _ ?_
    exact List.mem_filterMap.mpr ⟨t, ht, by simp [hp]⟩
  · intro t ht hnone hfail
    simp only [getHistoricalPricesConcurrent, List.map_append, List.mem_append]
    rintro (hmem | hmem)
    · obtain ⟨⟨a, q⟩, haq, hfst⟩ := List.mem_map.mp hmem
      obtain ⟨a', _, ha'⟩ := List.mem_filterMap.mp haq
      rcases hl : alookup (a', date) hist with _ | q'
      · rw [hl] at ha'; cases ha'
      · rw [hl] at ha'
        simp at ha'
        obtain ⟨rfl, rfl⟩ := ha'
        subst hfst
        rw [hnone] at hl; cases hl
    · rw [hfl.2] at hmem
      obtain ⟨⟨a, q⟩, haq, hfst⟩ := List.mem_map.mp hmem
      obtain ⟨a', _, ha'⟩ := List.mem_filterMap.mp haq
      rcases hfa : fetch a' with _ | q'
      · rw [hfa] at ha'; cases ha'
      · rw [hfa] at ha'
        simp at ha'
        obtain ⟨rfl, rfl⟩ := ha'
        subst hfst
        rw [hfail] at hfa; cases hfa
  · have hcol := collectCurrent_spec now ctickers cst
    simp only [getCurrentPrices]
    rw [hcol.2.1]
    rcases hM : ctickers.filter
        (fun t => (currentHit now cst.current_price_cache t).isNone)
      with _ | ⟨t, rest⟩
    · rfl
    · rcases hF : fetchBatch (t :: rest) with _ | data
      · simp [hF]
      · simp [hF]

/-- Witness for `many_ticker_fetch_spec`: in the historical fetch with
`A` pre-cached, `B` fetchable and `C` failing, only `B` and `C` are
fetched, `A` is served from the cache and `C` is omitted; in the
current-price fetch of the same three uncached tickers, one single
batched call for all three is issued. -/
theorem many_ticker_fetch_spec_witness :
    (getHistoricalPricesConcurrent (fun t => if t = "B" then some 5 else none)
      [(("A", "2024-01-02"), 3)] ["A", "B", "C"] "2024-01-02").2.2 = ["B", "C"] ∧
    ("A", (3 : Rat)) ∈ (getHistoricalPricesConcurrent
      (fun t => if t = "B" then some 5 else none)
      [(("A", "2024-01-02"), 3)] ["A", "B", "C"] "2024-01-02").1 ∧
    "C" ∉ (getHistoricalPricesConcurrent
      (fun t => if t = "B" then some 5 else none)
      [(("A", "2024-01-02"), 3)] ["A", "B", "C"] "2024-01-02").1.map Prod.fst ∧
    (getCurrentPrices 0 (fun _ => some []) ⟨[], 0, 0⟩ ["A", "B", "C"]).2.2 =
      [["A", "B", "C"]] := by
  have h := many_ticker_fetch_spec (fun t => if t = "B" then some 5 else none)
    [(("A", "2024-01-02"), 3)] ["A", "B", "C"] "2024-01-02"
    0 (fun _ => some []) ⟨[], 0, 0⟩ ["A", "B", "C"] (by decide)
  refine ⟨?_, ?_, ?_, ?_⟩
  · rw [h.1]; rfl
  · exact h.2.1 "A" 3 (by decide) (by decide)
  · exact h.2.2.1 "C" (by decide) (by decide) (by decide)
  · rw [h.2.2.2]; rfl
theorem totalCost_cons (prices : Prices) (pos : Position) (l : List Position) :
    totalCost prices (pos :: l) =
      (pos.shares : Rat) * priceD prices pos.ticker + totalCost prices l := by
  simp [totalCost]

theorem truncInt_zero : truncInt 0 = 0 := by
  simp [truncInt]

theorem minVals_nonneg : ∀ l : List Rat, (∀ v ∈ l, 0 ≤ v) → 0 ≤ minVals l := by
  intro l
  induction l with
  | nil => intro _; simp [minVals]
  | cons x rest ih =>
    intro h
    rcases rest with _ | ⟨y, r⟩
    · simpa [minVals] using h x (List.mem_cons_self _ _)
    · simp only [minVals]
      exact le_min (h x (List.mem_cons_self _ _))
        (ih (fun v hv => h v (List.mem_cons_of_mem _ hv)))

theorem minVals_pos : ∀ l : List Rat, l ≠ [] → (∀ v ∈ l, 0 < v) → 0 < minVals l := by
  intro l
  induction l with
  | nil => intro h _; exact absurd rfl h
  | cons x rest ih =>
    intro _ h
    rcases rest with _ | ⟨y, r⟩
    · simpa [minVals] using h x (List.mem_cons_self _ _)
    · simp only [minVals]
      exact lt_min (h x (List.mem_cons_self _ _))
        (ih (by simp) (fun v hv => h v (List.mem_cons_of_mem _ hv)))

theorem addToFirst_cost (prices : Prices) :
    ∀ (opt : List Position) (t : String) (k : Int), hasTicker opt t = true →
      totalCost prices (addToFirst opt t k) =
        totalCost prices opt + (k : Rat) * priceD prices t := by
  intro opt t k
  induction opt with
  | nil => intro h; simp [hasTicker] at h
  | cons pos rest ih =>
    intro h
    by_cases hp : pos.ticker = t
    · simp only [addToFirst, if_pos hp]
      rw [totalCost_cons, totalCost_cons]
      simp only
      rw [hp]
      push_cast
      ring
    · have h' : hasTicker rest t = true := by
        simp only [hasTicker, List.any_cons, Bool.or_eq_true, decide_eq_true_eq] at h ⊢
        rcases h with h | h
        · exact absurd h hp
        · exact h
      simp only [addToFirst, if_neg hp]
      rw [totalCost_cons, totalCost_cons, ih h']
      ring

theorem optLoop_cost (prices : Prices) (minP : Rat) :
    ∀ (l opt : List Position) (remaining : Rat), 0 ≤ remaining →
      totalCost prices (optLoop prices minP l opt remaining) ≤
        totalCost prices opt + remaining := by
  intro l
  induction l with
  | nil => intro opt remaining h; simpa [optLoop] using h
  | cons inv rest ih =>
    intro opt remaining hrem
    simp only [optLoop]
    by_cases hg : 0 < truncInt (remaining / priceD prices inv.ticker) ∧
        hasTicker opt inv.ticker
    · have hq : 0 < remaining / priceD prices inv.ticker := by
        by_contra hle
        push_neg at hle
        have := truncInt_nonpos hle
        omega
      have hprice : 0 < priceD prices inv.ticker := by
        rcases lt_trichotomy (priceD prices inv.ticker) 0 with hneg | hzero | hposi
        · exact absurd hq (not_lt.mpr (div_nonpos_iff.mpr (Or.inl ⟨hrem, le_of_lt hneg⟩)))
        · rw [hzero] at hq; simp at hq
        · exact hposi
      have hle : (truncInt (remaining / priceD prices inv.ticker) : Rat) ≤
          remaining / priceD prices inv.ticker := truncInt_le (le_of_lt hq)
      have hbuy : (truncInt (remaining / priceD prices inv.ticker) : Rat) *
          priceD prices inv.ticker ≤ remaining := by
        calc (truncInt (remaining / priceD prices inv.ticker) : Rat) *
              priceD prices inv.ticker
            ≤ remaining / priceD prices inv.ticker * priceD prices inv.ticker :=
              mul_le_mul_of_nonneg_right hle (le_of_lt hprice)
          _ = remaining := div_mul_cancel₀ remaining (ne_of_gt hprice)
      have hrem' : 0 ≤ remaining -
          (truncInt (remaining / priceD prices inv.ticker) : Rat) *
            priceD prices inv.ticker := by linarith
      have hcost := addToFirst_cost prices opt inv.ticker
        (truncInt (remaining / priceD prices inv.ticker)) hg.2
      rw [if_pos hg]
      split
      · simp only
        rw [hcost]
        linarith
      · simp only
        calc totalCost prices (optLoop prices minP rest
              (addToFirst opt inv.ticker
                (truncInt (remaining / priceD prices inv.ticker)))
              (remaining - (truncInt (remaining / priceD prices inv.ticker) : Rat) *
                priceD prices inv.ticker))
            ≤ totalCost prices (addToFirst opt inv.ticker
                (truncInt (remaining / priceD prices inv.ticker))) +
              (remaining - (truncInt (remaining / priceD prices inv.ticker) : Rat) *
                priceD prices inv.ticker) := ih _ _ hrem'
          _ = totalCost prices opt + remaining := by rw [hcost]; ring
    · rw [if_neg hg]
      split
      · simpa using hrem
      · simpa using ih opt remaining hrem

/-- C3: `optimize_budget_usage` never pushes the total cost past
`budget * TARGET_BUDGET_USAGE` plus one share of the cheapest priced
ticker (in fact it never exceeds the target at all when it changes the
allocation), and when the input cost is already at or above
`budget * 0.98` it returns the allocation unchanged. -/
theorem optimize_budget_spec (portfolio : List Position) (budget : Rat)
    (prices : Prices)
    (hcov : ∀ pos ∈ portfolio, (alookup pos.ticker prices).isSome)
    (hpos : ∀ pr ∈ prices, 0 < pr.2) :
    (budget * TARGET_BUDGET_USAGE ≤ totalCost prices portfolio →
      optimizeBudgetUsage portfolio budget prices = portfolio) ∧
    totalCost prices (optimizeBudgetUsage portfolio budget prices) ≤
      max (totalCost prices portfolio)
        (budget * TARGET_BUDGET_USAGE + minVals (prices.map Prod.snd)) := by
  have hvals : ∀ v ∈ prices.map Prod.snd, 0 < v := by
    intro v hv
    obtain ⟨pr, hpr, rfl⟩ := List.mem_map.mp hv
    exact hpos pr hpr
  have hminnn : 0 ≤ minVals (prices.map Prod.snd) :=
    minVals_nonneg _ (fun v hv => le_of_lt (hvals v hv))
  rcases hport : portfolio with _ | ⟨pos0, rest0⟩
  · refine ⟨fun _ => rfl, ?_⟩
    simp [optimizeBudgetUsage]
  · rw [← hport]
    have hne : portfolio.isEmpty = false := by rw [hport]; rfl
    have hpos0 : pos0 ∈ portfolio := by rw [hport]; exact List.mem_cons_self _ _
    have hpne : prices ≠ [] := by
      have := hcov pos0 hpos0
      rcases hl : alookup pos0.ticker prices with _ | q
      · rw [hl] at this; cases this
      · intro hnil
        rw [hnil] at hl
        cases hl
    have hminpos : 0 < minVals (prices.map Prod.snd) :=
      minVals_pos _ (by simpa using hpne) hvals
    constructor
    · intro hover
      simp only [optimizeBudgetUsage, hne, Bool.false_eq_true, if_false]
      by_cases hlt : budget * TARGET_BUDGET_USAGE - totalCost prices portfolio < 0
      · rw [if_pos hlt]
      · rw [if_neg hlt]
        push_neg at hlt
        have hzero : budget * TARGET_BUDGET_USAGE - totalCost prices portfolio = 0 :=
          le_antisymm (by linarith) hlt
        rw [hzero]
        rcases hs : sortByPriceP prices portfolio with _ | ⟨inv, rest⟩
        · rfl
        · simp [optLoop, truncInt_zero, hminpos]
    · simp only [optimizeBudgetUsage, hne, Bool.false_eq_true, if_false]
      by_cases hlt : budget * TARGET_BUDGET_USAGE - totalCost prices portfolio < 0
      · rw [if_pos hlt]
        exact le_max_left _ _
      · rw [if_neg hlt]
        push_neg at hlt
        have := optLoop_cost prices (minVals (prices.map Prod.snd))
          (sortByPriceP prices portfolio) portfolio
          (budget * TARGET_BUDGET_USAGE - totalCost prices portfolio) hlt
        refine le_trans ?_ (le_max_right _ _)
        linarith

/-- Witness for `optimize_budget_spec`: a single cheap position under
target is topped up but stays within the bound, and an allocation
already at target is returned unchanged. -/
theorem optimize_budget_spec_witness :
    optimizeBudgetUsage [⟨"AAPL", 2⟩] 200 [("AAPL", 100)] = [⟨"AAPL", 2⟩] ∧
    totalCost [("AAPL", 100)] (optimizeBudgetUsage [⟨"AAPL", 1⟩] 1000 [("AAPL", 100)]) ≤
      max (totalCost [("AAPL", 100)] [⟨"AAPL", 1⟩])
        (1000 * TARGET_BUDGET_USAGE + minVals ([("AAPL", (100 : Rat))].map Prod.snd)) := by
  constructor
  · refine (optimize_budget_spec [⟨"AAPL", 2⟩] 200 [("AAPL", 100)] ?_ ?_).1 ?_
    · intro pos hpos
      simp only [List.mem_singleton] at hpos
      subst hpos
      decide
    · intro pr hpr
      simp only [List.mem_singleton] at hpr
      subst hpr
      norm_num
    · norm_num [totalCost, priceD, alookup, TARGET_BUDGET_USAGE]
  · refine (optimize_budget_spec [⟨"AAPL", 1⟩] 1000 [("AAPL", 100)] ?_ ?_).2
    · intro pos hpos
      simp only [List.mem_singleton] at hpos
      subst hpos
      decide
    · intro pr hpr
      simp only [List.mem_singleton] at hpr
      subst hpr
      norm_num

/-- Entrywise frame relation between the input and output allocations of
the optimizer: same ticker, share count not decreased. -/
def posLe (a b : Position) : Prop :=
  a.ticker = b.ticker ∧ a.shares ≤ b.shares

theorem forall₂_posLe_refl : ∀ l : List Position, List.Forall₂ posLe l l := by
  intro l
  induction l with
  | nil => exact .nil
  | cons pos rest ih => exact .cons ⟨rfl, le_refl _⟩ ih

theorem forall₂_posLe_trans :
    ∀ {a b c : List Position}, List.Forall₂ posLe a b → List.Forall₂ posLe b c →
      List.Forall₂ posLe a c := by
  intro a b c hab
  induction hab generalizing c with
  | nil => intro hbc; cases hbc; exact .nil
  | cons hx ht ih =>
    intro hbc
    cases hbc with
    | cons hy hu => exact .cons ⟨hx.1.trans hy.1, hx.2.trans hy.2⟩ (ih hu)

theorem addToFirst_forall₂ (t : String) (k : Int) (hk : 0 ≤ k) :
    ∀ opt : List Position, List.Forall₂ posLe opt (addToFirst opt t k) := by
  intro opt
  induction opt with
  | nil => exact .nil
  | cons pos rest ih =>
    by_cases hp : pos.ticker = t
    · simp only [addToFirst, if_pos hp]
      exact .cons ⟨rfl, le_add_of_nonneg_right hk⟩ (forall₂_posLe_refl rest)
    · simp only [addToFirst, if_neg hp]
      exact .cons ⟨rfl, le_refl _⟩ ih

theorem optLoop_forall₂ (prices : Prices) (minP : Rat) :
    ∀ (l opt : List Position) (remaining : Rat),
      List.Forall₂ posLe opt (optLoop prices minP l opt remaining) := by
  intro l
  induction l with
  | nil => intro opt remaining; exact forall₂_posLe_refl opt
  | cons inv rest ih =>
    intro opt remaining
    simp only [optLoop]
    by_cases hg : 0 < truncInt (remaining / priceD prices inv.ticker) ∧
        hasTicker opt inv.ticker
    · have hstep := addToFirst_forall₂ inv.ticker
        (truncInt (remaining / priceD prices inv.ticker)) (le_of_lt hg.1) opt
      rw [if_pos hg]
      split
      · exact hstep
      · exact forall₂_posLe_trans hstep (ih _ _)
    · rw [if_neg hg]
      split
      · exact forall₂_posLe_refl opt
      · exact ih opt remaining

theorem forall₂_posLe_map_ticker :
    ∀ {a b : List Position}, List.Forall₂ posLe a b →
      a.map Position.ticker = b.map Position.ticker := by
  intro a b h
  induction h with
  | nil => rfl
  | cons hx _ ih => simp [hx.1, ih]

/-- C10: `optimize_budget_usage` returns an allocation with exactly the
same tickers in the same order as its input, never removing or adding a
position, and never decreasing a share count. -/
theorem optimize_budget_frame (portfolio : List Position) (budget : Rat)
    (prices : Prices)
    (_hcov : ∀ pos ∈ portfolio, (alookup pos.ticker prices).isSome) :
    (optimizeBudgetUsage portfolio budget prices).map Position.ticker =
      portfolio.map Position.ticker ∧
    List.Forall₂ posLe portfolio (optimizeBudgetUsage portfolio budget prices) := by
  have hmain : List.Forall₂ posLe portfolio
      (optimizeBudgetUsage portfolio budget prices) := by
    simp only [optimizeBudgetUsage]
    split
    · exact forall₂_posLe_refl portfolio
    · split
      · exact forall₂_posLe_refl portfolio
      · exact optLoop_forall₂ prices _ _ portfolio _
  exact ⟨(forall₂_posLe_map_ticker hmain).symm, hmain⟩

/-- Witness for `optimize_budget_frame`: topping up a cheap two-ticker
portfolio keeps the tickers and never shrinks a position. -/
theorem optimize_budget_frame_witness :
    (optimizeBudgetUsage [⟨"AAPL", 1⟩, ⟨"WMT", 1⟩] 1000
        [("AAPL", 100), ("WMT", 50)]).map Position.ticker = ["AAPL", "WMT"] ∧
    List.Forall₂ posLe [⟨"AAPL", 1⟩, ⟨"WMT", 1⟩]
      (optimizeBudgetUsage [⟨"AAPL", 1⟩, ⟨"WMT", 1⟩] 1000
        [("AAPL", 100), ("WMT", 50)]) := by
  have h := optimize_budget_frame [⟨"AAPL", 1⟩, ⟨"WMT", 1⟩] 1000
    [("AAPL", 100), ("WMT", 50)]
    (by intro pos hpos
        rcases List.mem_cons.mp hpos with rfl | hpos'
        · decide
        · simp only [List.mem_singleton] at hpos'
          subst hpos'
          decide)
  exact ⟨h.1, h.2⟩

theorem STOCKS_tickers_nodup : (STOCKS.map Stock.ticker).Nodup := by decide

theorem pricedPool_mem (avoided : List String) (prices : Prices) :
    ∀ sp ∈ pricedPool avoided prices, alookup sp.1.ticker prices = some sp.2 := by
  intro sp hsp
  simp only [pricedPool, List.mem_filterMap] at hsp
  obtain ⟨s, _, hs⟩ := hsp
  split at hs
  · cases hs
  · rcases hl : alookup s.ticker prices with _ | p
    · rw [hl] at hs; cases hs
    · rw [hl] at hs
      simp only [Option.map_some'] at hs
      injection hs with hs
      subst hs
      simpa using hl

theorem sortByPrice_perm (l : List (Stock × Rat)) :
    List.Perm (sortByPrice l) l :=
  List.mergeSort_perm l _

theorem pricedPool_tickers_sublist (avoided : List String) (prices : Prices) :
    List.Sublist ((pricedPool avoided prices).map (fun sp => sp.1.ticker))
      (STOCKS.map Stock.ticker) := by
  unfold pricedPool
  generalize STOCKS = l
  induction l with
  | nil => simp
  | cons s rest ih =>
    simp only [List.filterMap_cons, List.map_cons]
    by_cases hav : s.sector ∈ avoided
    · rw [if_pos hav]
      exact ih.cons _
    · rw [if_neg hav]
      rcases hl : alookup s.ticker prices with _ | p
      · simp only [Option.map_none']
        exact ih.cons _
      · simp only [Option.map_some', List.map_cons]
        exact ih.cons₂ _

theorem pricedPool_tickers_nodup (avoided : List String) (prices : Prices) :
    ((pricedPool avoided prices).map (fun sp => sp.1.ticker)).Nodup :=
  List.Nodup.sublist (pricedPool_tickers_sublist avoided prices)
    STOCKS_tickers_nodup

theorem sortByPrice_tickers_perm (l : List (Stock × Rat)) :
    List.Perm ((sortByPrice l).map (fun sp => sp.1.ticker))
      (l.map (fun sp => sp.1.ticker)) :=
  (sortByPrice_perm l).map _

/-- Invariant carried by every candidate pool handed to the share-emitting
loops: the price paired with each stock is positive and is the price the
map assigns to its ticker. -/
def PoolOk (prices : Prices) (pool : List (Stock × Rat)) : Prop :=
  ∀ sp ∈ pool, 0 < sp.2 ∧ alookup sp.1.ticker prices = some sp.2

theorem poolOk_pricedPool (avoided : List String) (prices : Prices)
    (hpos : ∀ pr ∈ prices, 0 < pr.2) :
    PoolOk prices (pricedPool avoided prices) := by
  intro sp hsp
  have hl := pricedPool_mem avoided prices sp hsp
  exact ⟨hpos _ (alookup_mem hl), hl⟩

theorem poolOk_of_sublist {prices : Prices} {l₁ l₂ : List (Stock × Rat)}
    (hsub : List.Sublist l₁ l₂) (h : PoolOk prices l₂) : PoolOk prices l₁ :=
  fun sp hsp => h sp (hsub.subset hsp)

theorem poolOk_of_perm {prices : Prices} {l₁ l₂ : List (Stock × Rat)}
    (hperm : List.Perm l₁ l₂) (h : PoolOk prices l₂) : PoolOk prices l₁ :=
  fun sp hsp => h sp (hperm.mem_iff.mp hsp)

theorem allocEqual_spec (prices : Prices) (per : Rat) (hper : 0 ≤ per) :
    ∀ pool : List (Stock × Rat), PoolOk prices pool →
      List.Sublist ((allocEqual per pool).map Position.ticker)
        (pool.map (fun sp => sp.1.ticker)) ∧
      (∀ pos ∈ allocEqual per pool, 0 < pos.shares) ∧
      totalCost prices (allocEqual per pool) ≤ (pool.length : Rat) * per := by
  intro pool
  induction pool with
  | nil => intro _; exact ⟨by simp [allocEqual], by simp [allocEqual], by simp [allocEqual, totalCost]⟩
  | cons sp rest ih =>
    intro h
    have hsp := h sp (List.mem_cons_self _ _)
    have hrest := ih (fun x hx => h x (List.mem_cons_of_mem _ hx))
    by_cases hsh : 0 < truncInt (per / sp.2)
    · have hemit : allocEqual per (sp :: rest) =
          ⟨sp.1.ticker, truncInt (per / sp.2)⟩ :: allocEqual per rest := by
        simp [allocEqual, hsh]
      have hcost1 : (truncInt (per / sp.2) : Rat) * sp.2 ≤ per := by
        have hq : (0 : Rat) ≤ per / sp.2 := div_nonneg hper (le_of_lt hsp.1)
        calc (truncInt (per / sp.2) : Rat) * sp.2
            ≤ per / sp.2 * sp.2 :=
              mul_le_mul_of_nonneg_right (truncInt_le hq) (le_of_lt hsp.1)
          _ = per := div_mul_cancel₀ per (ne_of_gt hsp.1)
      refine ⟨?_, ?_, ?_⟩
      · rw [hemit]
        simp only [List.map_cons]
        exact List.Sublist.cons₂ sp.1.ticker hrest.1
      · intro pos hpos
        rw [hemit] at hpos
        rcases List.mem_cons.mp hpos with rfl | hpos'
        · exact hsh
        · exact hrest.2.1 pos hpos'
      · rw [hemit, totalCost_cons]
        simp only [priceD, hsp.2, Option.getD_some]
        have : (((sp :: rest).length : Rat)) = (rest.length : Rat) + 1 := by
          push_cast [List.length_cons]
          ring
        rw [this]
        have := hrest.2.2
        linarith
    · have hskip : allocEqual per (sp :: rest) = allocEqual per rest := by
        simp [allocEqual, hsh]
      refine ⟨?_, ?_, ?_⟩
      · rw [hskip]
        simp only [List.map_cons]
        exact hrest.1.cons _
      · intro pos hpos
        rw [hskip] at hpos
        exact hrest.2.1 pos hpos
      · rw [hskip]
        have hlen : ((rest.length : Rat)) * per ≤ (((sp :: rest).length : Rat)) * per := by
          have : ((rest.length : Rat)) ≤ ((sp :: rest).length : Rat) := by
            push_cast [List.length_cons]
            linarith
          exact mul_le_mul_of_nonneg_right this hper
        exact le_trans hrest.2.2 hlen

theorem selectDiverse_sublist (target cap : Nat) :
    ∀ (l : List (Stock × Rat)) (selCount : Nat) (counts : List (String × Nat)),
      List.Sublist (selectDiverse target cap l selCount counts) l := by
  intro l
  induction l with
  | nil => intro selCount counts; simp [selectDiverse]
  | cons sp rest ih =>
    intro selCount counts
    simp only [selectDiverse]
    split
    · exact List.nil_sublist _
    · split
      · exact (ih _ _).cons₂ _
      · exact (ih _ _).cons _

theorem selectOther_spec (prices : Prices) (per : Rat) (hper : 0 ≤ per)
    (target : Nat) :
    ∀ (l : List (Stock × Rat)) (selCount : Nat) (counts : List (String × Nat)),
      PoolOk prices l →
      List.Sublist ((selectOther per target l selCount counts).map Position.ticker)
        (l.map (fun sp => sp.1.ticker)) ∧
      (∀ pos ∈ selectOther per target l selCount counts, 0 < pos.shares) ∧
      totalCost prices (selectOther per target l selCount counts) ≤
        ((target - selCount : Nat) : Rat) * per := by
  intro l
  induction l with
  | nil =>
    intro selCount counts _
    refine ⟨by simp [selectOther], by simp [selectOther], ?_⟩
    simp only [selectOther, totalCost, List.map_nil, List.sum_nil]
    positivity
  | cons sp rest ih =>
    intro selCount counts h
    have hsp := h sp (List.mem_cons_self _ _)
    have hrestOk : PoolOk prices rest := fun x hx => h x (List.mem_cons_of_mem _ hx)
    simp only [selectOther]
    by_cases hstop : target ≤ selCount
    · rw [if_pos hstop]
      refine ⟨by simp, by simp, ?_⟩
      simp only [totalCost, List.map_nil, List.sum_nil]
      positivity
    · rw [if_neg hstop]
      by_cases hcap : countOf counts sp.1.sector < 1
      · rw [if_pos hcap]
        by_cases hsh : 0 < truncInt (per / sp.2)
        · rw [if_pos hsh]
          have hind := ih (selCount + 1) (dictInsert counts sp.1.sector 1) hrestOk
          have hcost1 : (truncInt (per / sp.2) : Rat) * sp.2 ≤ per := by
            have hq : (0 : Rat) ≤ per / sp.2 := div_nonneg hper (le_of_lt hsp.1)
            calc (truncInt (per / sp.2) : Rat) * sp.2
                ≤ per / sp.2 * sp.2 :=
                  mul_le_mul_of_nonneg_right (truncInt_le hq) (le_of_lt hsp.1)
              _ = per := div_mul_cancel₀ per (ne_of_gt hsp.1)
          refine ⟨?_, ?_, ?_⟩
          · simp only [List.map_cons]
            exact List.Sublist.cons₂ sp.1.ticker hind.1
          · intro pos hpos
            rcases List.mem_cons.mp hpos with rfl | hpos'
            · exact hsh
            · exact hind.2.1 pos hpos'
          · rw [totalCost_cons]
            simp only [priceD, hsp.2, Option.getD_some]
            have h1 : selCount < target := lt_of_not_le hstop
            have hsub : ((target - selCount : Nat) : Rat) =
                ((target - (selCount + 1) : Nat) : Rat) + 1 := by
              rw [Nat.cast_sub (le_of_lt h1), Nat.cast_sub h1]
              push_cast
              ring
            have := hind.2.2
            rw [hsub]
            linarith
        · rw [if_neg hsh]
          have hind := ih selCount counts hrestOk
          refine ⟨?_, hind.2.1, hind.2.2⟩
          simp only [List.map_cons]
          exact hind.1.cons _
      · rw [if_neg hcap]
        have hind := ih selCount counts hrestOk
        refine ⟨?_, hind.2.1, hind.2.2⟩
        simp only [List.map_cons]
        exact hind.1.cons _

theorem filter_tickers_disjoint (pool : List (Stock × Rat))
    (hnd : (pool.map (fun sp => sp.1.ticker)).Nodup)
    (p : Stock × Rat → Bool) :
    ∀ t, t ∈ (pool.filter p).map (fun sp => sp.1.ticker) →
      t ∈ (pool.filter (fun sp => ¬ p sp)).map (fun sp => sp.1.ticker) → False := by
  intro t h1 h2
  obtain ⟨sp₁, hsp₁, ht₁⟩ := List.mem_map.mp h1
  obtain ⟨sp₂, hsp₂, ht₂⟩ := List.mem_map.mp h2
  have hm₁ := List.mem_filter.mp hsp₁
  have hm₂ := List.mem_filter.mp hsp₂
  have heq : sp₁ = sp₂ :=
    List.inj_on_of_nodup_map hnd hm₁.1 hm₂.1 (ht₁.trans ht₂.symm)
  rw [heq] at hm₁
  have := hm₂.2
  simp only [decide_eq_true_eq] at this
  exact this hm₁.2

theorem prefPart_spec (prices : Prices) (budgetPart : Rat) (maxN : Nat)
    (hbp : 0 ≤ budgetPart) (hmax : 0 < maxN) (l : List (Stock × Rat))
    (hOk : PoolOk prices l) :
    List.Sublist ((prefPart budgetPart maxN l).map Position.ticker)
      (l.map (fun sp => sp.1.ticker)) ∧
    (∀ pos ∈ prefPart budgetPart maxN l, 0 < pos.shares) ∧
    totalCost prices (prefPart budgetPart maxN l) ≤ budgetPart := by
  by_cases hemp : l.isEmpty
  · refine ⟨?_, ?_, ?_⟩ <;> simp [prefPart, hemp, totalCost]
    exact hbp
  · have hlen : 0 < l.length := by
      rcases l with _ | _
      · simp at hemp
      · simp
    have htarget : 0 < min maxN l.length := lt_min hmax hlen
    have hper : 0 ≤ budgetPart / ((min maxN l.length : Nat) : Rat) := by
      apply div_nonneg hbp
      exact_mod_cast le_of_lt htarget
    have hOkTake : PoolOk prices (l.take (min maxN l.length)) :=
      poolOk_of_sublist (List.take_sublist _ _) hOk
    have hall := allocEqual_spec prices _ hper (l.take (min maxN l.length)) hOkTake
    have hePP : prefPart budgetPart maxN l =
        allocEqual (budgetPart / ((min maxN l.length : Nat) : Rat))
          (l.take (min maxN l.length)) := by
      simp [prefPart, hemp]
    refine ⟨?_, ?_, ?_⟩
    · rw [hePP]
      exact hall.1.trans ((List.take_sublist _ _).map _)
    · rw [hePP]
      exact hall.2.1
    · rw [hePP]
      refine le_trans hall.2.2 ?_
      have hlen2 : ((l.take (min maxN l.length)).length : Rat) =
          ((min maxN l.length : Nat) : Rat) := by
        rw [List.length_take]
        congr 1
        omega
      rw [hlen2]
      rw [mul_div_cancel₀ budgetPart]
      exact_mod_cast ne_of_gt htarget

theorem diversification_valid (ctx : Context) (prices : Prices)
    (hb : 0 < ctx.budget) (hpos : ∀ pr ∈ prices, 0 < pr.2) :
    ((diversification ctx prices).map Position.ticker).Nodup ∧
    (∀ pos ∈ diversification ctx prices, 0 < pos.shares) ∧
    totalCost prices (diversification ctx prices) ≤
      ctx.budget * INITIAL_BUDGET_USAGE := by
  have hsafe : 0 ≤ ctx.budget * INITIAL_BUDGET_USAGE := by
    have : (0 : Rat) ≤ INITIAL_BUDGET_USAGE := by norm_num [INITIAL_BUDGET_USAGE]
    positivity
  simp only [diversification]
  set pool := pricedPool ctx.avoided_sectors prices with hpooldef
  set cands := sortByPrice pool with hcandsdef
  set target : Nat :=
    if ctx.budget < 100 then 3 else if ctx.budget < 500 then 5 else 7 with htargetdef
  set selected := selectDiverse target (max 2 (target / 2)) cands 0 [] with hseldef
  have hOkPool : PoolOk prices pool := poolOk_pricedPool _ _ hpos
  have hOkCands : PoolOk prices cands :=
    poolOk_of_perm (sortByPrice_perm pool) hOkPool
  have hOkSel : PoolOk prices selected :=
    poolOk_of_sublist (selectDiverse_sublist _ _ _ _ _) hOkCands
  have hndCands : (cands.map (fun sp => sp.1.ticker)).Nodup :=
    ((sortByPrice_tickers_perm pool).nodup_iff).mpr
      (pricedPool_tickers_nodup _ _)
  have hndSel : (selected.map (fun sp => sp.1.ticker)).Nodup :=
    List.Nodup.sublist ((selectDiverse_sublist _ _ _ _ _).map _) hndCands
  by_cases hsel : selected.isEmpty
  · rw [if_pos hsel]
    refine ⟨by simp, by simp, ?_⟩
    simpa [totalCost] using hsafe
  · rw [if_neg hsel]
    have hlen : 0 < selected.length := by
      rcases hs : selected with _ | _
      · rw [hs] at hsel; simp at hsel
      · simp
    have hper : 0 ≤ ctx.budget * INITIAL_BUDGET_USAGE / (selected.length : Rat) := by
      apply div_nonneg hsafe
      exact_mod_cast le_of_lt hlen
    have hall := allocEqual_spec prices _ hper selected hOkSel
    refine ⟨?_, hall.2.1, ?_⟩
    · exact List.Nodup.sublist hall.1 hndSel
    · refine le_trans hall.2.2 ?_
      rw [mul_div_cancel₀ (ctx.budget * INITIAL_BUDGET_USAGE)]
      exact_mod_cast ne_of_gt hlen

theorem totalCost_append (prices : Prices) (a b : List Position) :
    totalCost prices (a ++ b) = totalCost prices a + totalCost prices b := by
  simp [totalCost]

theorem filter_sector_tickers_disjoint (pool : List (Stock × Rat))
    (hnd : (pool.map (fun sp => sp.1.ticker)).Nodup) (sectors : List String) :
    ∀ t, t ∈ (pool.filter (fun sp => sp.1.sector ∈ sectors)).map
        (fun sp => sp.1.ticker) →
      t ∈ (pool.filter (fun sp => sp.1.sector ∉ sectors)).map
        (fun sp => sp.1.ticker) → False := by
  intro t h1 h2
  obtain ⟨sp₁, hsp₁, ht₁⟩ := List.mem_map.mp h1
  obtain ⟨sp₂, hsp₂, ht₂⟩ := List.mem_map.mp h2
  have hm₁ := List.mem_filter.mp hsp₁
  have hm₂ := List.mem_filter.mp hsp₂
  have heq : sp₁ = sp₂ :=
    List.inj_on_of_nodup_map hnd hm₁.1 hm₂.1 (ht₁.trans ht₂.symm)
  have ha := hm₁.2
  have hc := hm₂.2
  rw [heq] at ha
  simp only [decide_eq_true_eq] at ha hc
  exact hc ha

theorem append_alloc_valid (prices : Prices)
    (A B : List Position) (LA LB : List String) (bA bB : Rat)
    (hsubA : List.Sublist (A.map Position.ticker) LA)
    (hsubB : List.Sublist (B.map Position.ticker) LB)
    (hndA : LA.Nodup) (hndB : LB.Nodup)
    (hdisj : ∀ t, t ∈ LA → t ∈ LB → False)
    (hshA : ∀ pos ∈ A, 0 < pos.shares) (hshB : ∀ pos ∈ B, 0 < pos.shares)
    (hcA : totalCost prices A ≤ bA) (hcB : totalCost prices B ≤ bB) :
    ((A ++ B).map Position.ticker).Nodup ∧
    (∀ pos ∈ A ++ B, 0 < pos.shares) ∧
    totalCost prices (A ++ B) ≤ bA + bB := by
  refine ⟨?_, ?_, ?_⟩
  · rw [List.map_append]
    exact List.Nodup.append (List.Nodup.sublist hsubA hndA)
      (List.Nodup.sublist hsubB hndB)
      (fun t ht1 ht2 => hdisj t (hsubA.subset ht1) (hsubB.subset ht2))
  · intro pos hpos
    rcases List.mem_append.mp hpos with h | h
    · exact hshA pos h
    · exact hshB pos h
  · rw [totalCost_append]
    exact add_le_add hcA hcB

theorem otherPartPW_spec (prices : Prices) (budgetPart : Rat)
    (hbp : 0 ≤ budgetPart) (l : List (Stock × Rat)) (hOk : PoolOk prices l) :
    List.Sublist ((otherPartPW budgetPart l).map Position.ticker)
      (l.map (fun sp => sp.1.ticker)) ∧
    (∀ pos ∈ otherPartPW budgetPart l, 0 < pos.shares) ∧
    totalCost prices (otherPartPW budgetPart l) ≤ budgetPart := by
  by_cases hemp : l.isEmpty
  · refine ⟨?_, ?_, ?_⟩ <;> simp [otherPartPW, hemp, totalCost]
    exact hbp
  · have hlen : 0 < l.length := by
      rcases l with _ | _
      · simp at hemp
      · simp
    have htarget : 0 < min 3 l.length := lt_min (by norm_num) hlen
    have hper : 0 ≤ budgetPart / ((min 3 l.length : Nat) : Rat) := by
      apply div_nonneg hbp
      exact_mod_cast le_of_lt htarget
    have heq : otherPartPW budgetPart l =
        selectOther (budgetPart / ((min 3 l.length : Nat) : Rat))
          (min 3 l.length) l 0 [] := by
      simp [otherPartPW, hemp]
    have hsel := selectOther_spec prices _ hper (min 3 l.length) l 0 [] hOk
    rw [heq]
    refine ⟨hsel.1, hsel.2.1, ?_⟩
    refine le_trans hsel.2.2 ?_
    rw [Nat.sub_zero, mul_div_cancel₀ budgetPart]
    exact_mod_cast ne_of_gt htarget

theorem otherPartHC_spec (prices : Prices) (budgetPart : Rat)
    (hbp : 0 ≤ budgetPart) (l : List (Stock × Rat)) (hOk : PoolOk prices l) :
    List.Sublist ((otherPartHC budgetPart l).map Position.ticker)
      (l.map (fun sp => sp.1.ticker)) ∧
    (∀ pos ∈ otherPartHC budgetPart l, 0 < pos.shares) ∧
    totalCost prices (otherPartHC budgetPart l) ≤ budgetPart := by
  rcases l with _ | ⟨sp, rest⟩
  · refine ⟨?_, ?_, ?_⟩ <;> simp [otherPartHC, totalCost]
    exact hbp
  · have hsp := hOk sp (List.mem_cons_self _ _)
    simp only [otherPartHC]
    by_cases hpos0 : (0 : Rat) < budgetPart
    · rw [if_pos hpos0]
      by_cases hsh : 0 < truncInt (budgetPart / sp.2)
      · rw [if_pos hsh]
        refine ⟨?_, ?_, ?_⟩
        · simp only [List.map_cons, List.map_singleton]
          exact (List.nil_sublist _).cons₂ _
        · intro pos hpos
          simp only [List.mem_singleton] at hpos
          subst hpos
          exact hsh
        · rw [totalCost_cons]
          simp only [totalCost, List.map_nil, List.sum_nil, add_zero, priceD,
            hsp.2, Option.getD_some]
          have hq : (0 : Rat) ≤ budgetPart / sp.2 :=
            div_nonneg hbp (le_of_lt hsp.1)
          calc (truncInt (budgetPart / sp.2) : Rat) * sp.2
              ≤ budgetPart / sp.2 * sp.2 :=
                mul_le_mul_of_nonneg_right (truncInt_le hq) (le_of_lt hsp.1)
            _ = budgetPart := div_mul_cancel₀ budgetPart (ne_of_gt hsp.1)
      · rw [if_neg hsh]
        refine ⟨List.nil_sublist _, by simp, ?_⟩
        simpa [totalCost] using hbp
    · rw [if_neg hpos0]
      refine ⟨List.nil_sublist _, by simp, ?_⟩
      simpa [totalCost] using hbp

theorem preferenceWeighted_valid (ctx : Context) (prices : Prices)
    (hb : 0 < ctx.budget) (hpos : ∀ pr ∈ prices, 0 < pr.2) :
    ((preferenceWeighted ctx prices).map Position.ticker).Nodup ∧
    (∀ pos ∈ preferenceWeighted ctx prices, 0 < pos.shares) ∧
    totalCost prices (preferenceWeighted ctx prices) ≤
      ctx.budget * (60 / 100 : Rat) + ctx.budget * (36 / 100 : Rat) := by
  simp only [preferenceWeighted]
  set pool := pricedPool ctx.avoided_sectors prices with hpooldef
  set prefF := pool.filter (fun sp => sp.1.sector ∈ ctx.preferred_sectors)
    with hprefFdef
  set otherF := pool.filter (fun sp => sp.1.sector ∉ ctx.preferred_sectors)
    with hotherFdef
  have hOkPool : PoolOk prices pool := poolOk_pricedPool _ _ hpos
  have hndPool : (pool.map (fun sp => sp.1.ticker)).Nodup :=
    pricedPool_tickers_nodup _ _
  have hOkPrefS : PoolOk prices (sortByPrice prefF) :=
    poolOk_of_perm (sortByPrice_perm prefF)
      (poolOk_of_sublist (List.filter_sublist pool) hOkPool)
  have hOkOtherS : PoolOk prices (sortByPrice otherF) :=
    poolOk_of_perm (sortByPrice_perm otherF)
      (poolOk_of_sublist (List.filter_sublist pool) hOkPool)
  have hndPrefS : ((sortByPrice prefF).map (fun sp => sp.1.ticker)).Nodup :=
    ((sortByPrice_tickers_perm prefF).nodup_iff).mpr
      (List.Nodup.sublist ((List.filter_sublist pool).map _) hndPool)
  have hndOtherS : ((sortByPrice otherF).map (fun sp => sp.1.ticker)).Nodup :=
    ((sortByPrice_tickers_perm otherF).nodup_iff).mpr
      (List.Nodup.sublist ((List.filter_sublist pool).map _) hndPool)
  have hbp : (0 : Rat) ≤ ctx.budget * (60 / 100 : Rat) :=
    mul_nonneg (le_of_lt hb) (by norm_num)
  have hbo : (0 : Rat) ≤ ctx.budget * (36 / 100 : Rat) :=
    mul_nonneg (le_of_lt hb) (by norm_num)
  have hpref := prefPart_spec prices (ctx.budget * (60 / 100 : Rat)) 3 hbp
    (by norm_num) (sortByPrice prefF) hOkPrefS
  have hother := otherPartPW_spec prices (ctx.budget * (36 / 100 : Rat)) hbo
    (sortByPrice otherF) hOkOtherS
  have hdisj : ∀ t, t ∈ (sortByPrice prefF).map (fun sp => sp.1.ticker) →
      t ∈ (sortByPrice otherF).map (fun sp => sp.1.ticker) → False := by
    intro t h1 h2
    refine filter_sector_tickers_disjoint pool hndPool ctx.preferred_sectors t ?_ ?_
    · rw [hprefFdef] at h1
      exact ((sortByPrice_tickers_perm _).mem_iff).mp h1
    · rw [hotherFdef] at h2
      exact ((sortByPrice_tickers_perm _).mem_iff).mp h2
  exact append_alloc_valid prices _ _
    ((sortByPrice prefF).map (fun sp => sp.1.ticker))
    ((sortByPrice otherF).map (fun sp => sp.1.ticker))
    (ctx.budget * (60 / 100 : Rat)) (ctx.budget * (36 / 100 : Rat))
    hpref.1 hother.1 hndPrefS hndOtherS hdisj hpref.2.1 hother.2.1
    hpref.2.2 hother.2.2

theorem highConviction_valid (ctx : Context) (prices : Prices)
    (hb : 0 < ctx.budget) (hpos : ∀ pr ∈ prices, 0 < pr.2) :
    ((highConviction ctx prices).map Position.ticker).Nodup ∧
    (∀ pos ∈ highConviction ctx prices, 0 < pos.shares) ∧
    totalCost prices (highConviction ctx prices) ≤
      ctx.budget * (80 / 100 : Rat) + ctx.budget * (16 / 100 : Rat) := by
  simp only [highConviction]
  set pool := pricedPool ctx.avoided_sectors prices with hpooldef
  set prefF := pool.filter (fun sp => sp.1.sector ∈ ctx.preferred_sectors)
    with hprefFdef
  set otherF := pool.filter (fun sp => sp.1.sector ∉ ctx.preferred_sectors)
    with hotherFdef
  have hOkPool : PoolOk prices pool := poolOk_pricedPool _ _ hpos
  have hndPool : (pool.map (fun sp => sp.1.ticker)).Nodup :=
    pricedPool_tickers_nodup _ _
  have hOkPrefS : PoolOk prices (sortByPrice prefF) :=
    poolOk_of_perm (sortByPrice_perm prefF)
      (poolOk_of_sublist (List.filter_sublist pool) hOkPool)
  have hOkOtherS : PoolOk prices (sortByPrice otherF) :=
    poolOk_of_perm (sortByPrice_perm otherF)
      (poolOk_of_sublist (List.filter_sublist pool) hOkPool)
  have hndPrefS : ((sortByPrice prefF).map (fun sp => sp.1.ticker)).Nodup :=
    ((sortByPrice_tickers_perm prefF).nodup_iff).mpr
      (List.Nodup.sublist ((List.filter_sublist pool).map _) hndPool)
  have hndOtherS : ((sortByPrice otherF).map (fun sp => sp.1.ticker)).Nodup :=
    ((sortByPrice_tickers_perm otherF).nodup_iff).mpr
      (List.Nodup.sublist ((List.filter_sublist pool).map _) hndPool)
  have hbp : (0 : Rat) ≤ ctx.budget * (80 / 100 : Rat) :=
    mul_nonneg (le_of_lt hb) (by norm_num)
  have hbo : (0 : Rat) ≤ ctx.budget * (16 / 100 : Rat) :=
    mul_nonneg (le_of_lt hb) (by norm_num)
  have hpref := prefPart_spec prices (ctx.budget * (80 / 100 : Rat)) 4 hbp
    (by norm_num) (sortByPrice prefF) hOkPrefS
  have hother := otherPartHC_spec prices (ctx.budget * (16 / 100 : Rat)) hbo
    (sortByPrice otherF) hOkOtherS
  have hdisj : ∀ t, t ∈ (sortByPrice prefF).map (fun sp => sp.1.ticker) →
      t ∈ (sortByPrice otherF).map (fun sp => sp.1.ticker) → False := by
    intro t h1 h2
    refine filter_sector_tickers_disjoint pool hndPool ctx.preferred_sectors t ?_ ?_
    · rw [hprefFdef] at h1
      exact ((sortByPrice_tickers_perm _).mem_iff).mp h1
    · rw [hotherFdef] at h2
      exact ((sortByPrice_tickers_perm _).mem_iff).mp h2
  exact append_alloc_valid prices _ _
    ((sortByPrice prefF).map (fun sp => sp.1.ticker))
    ((sortByPrice otherF).map (fun sp => sp.1.ticker))
    (ctx.budget * (80 / 100 : Rat)) (ctx.budget * (16 / 100 : Rat))
    hpref.1 hother.1 hndPrefS hndOtherS hdisj hpref.2.1 hother.2.1
    hpref.2.2 hother.2.2

/-- C1: for every strategy tag, client context with positive budget, and
price map assigning positive prices, the allocation returned by
`build_portfolio` contains no duplicate tickers, every share count is
strictly positive, and the total cost (shares times price summed over
the entries) does not exceed budget times 1.01. -/
theorem build_portfolio_valid (strategy : String) (ctx : Context)
    (prices : Prices) (hb : 0 < ctx.budget)
    (hpos : ∀ pr ∈ prices, 0 < pr.2) :
    ((buildPortfolio strategy ctx prices).map Position.ticker).Nodup ∧
    (∀ pos ∈ buildPortfolio strategy ctx prices, 0 < pos.shares) ∧
    totalCost prices (buildPortfolio strategy ctx prices) ≤
      ctx.budget * (101 / 100 : Rat) := by
  have hdiv := diversification_valid ctx prices hb hpos
  have hpw := preferenceWeighted_valid ctx prices hb hpos
  have hhc := highConviction_valid ctx prices hb hpos
  have hIB : INITIAL_BUDGET_USAGE = (96 / 100 : Rat) := rfl
  unfold buildPortfolio
  split_ifs <;>
    first
      | exact ⟨hdiv.1, hdiv.2.1, le_trans hdiv.2.2 (by rw [hIB]; linarith)⟩
      | exact ⟨hpw.1, hpw.2.1, le_trans hpw.2.2 (by linarith)⟩
      | exact ⟨hhc.1, hhc.2.1, le_trans hhc.2.2 (by linarith)⟩

/-- Witness for `build_portfolio_valid` on the spec scenario: budget 300,
Technology preferred, strength band high_conviction, two priced stocks. -/
theorem build_portfolio_valid_witness :
    ((buildPortfolio "high_conviction" ⟨300, ["Technology"], [], 75⟩
        [("AAPL", 100), ("WMT", 50)]).map Position.ticker).Nodup ∧
    (∀ pos ∈ buildPortfolio "high_conviction" ⟨300, ["Technology"], [], 75⟩
        [("AAPL", 100), ("WMT", 50)], 0 < pos.shares) ∧
    totalCost [("AAPL", 100), ("WMT", 50)]
        (buildPortfolio "high_conviction" ⟨300, ["Technology"], [], 75⟩
          [("AAPL", 100), ("WMT", 50)]) ≤ 300 * (101 / 100 : Rat) :=
  build_portfolio_valid "high_conviction" ⟨300, ["Technology"], [], 75⟩
    [("AAPL", 100), ("WMT", 50)] (by norm_num)
    (by intro pr hpr
        rcases List.mem_cons.mp hpr with rfl | hpr'
        · norm_num
        · simp only [List.mem_singleton] at hpr'
          subst hpr'
          norm_num)

end Prism
